import Mathlib

/-!
# xv6 memory-management core: page allocator, buffer cache, VMA manager

A shallow embedding of `kernel/kalloc.c`, `kernel/bio.c` and `kernel/vma.c`
and theorems about it.  Each C function is a Lean function of the same name
working on an explicit state; a null-pointer dereference or a `panic` is the
result `none`.  The model is sequential: spinlocks and sleep-locks, which
change no data, are left out.
-/

set_option autoImplicit false

/-! ## kalloc.c : the per-core physical page allocator -/

/-- Modelled from the spec: the constant `PGSIZE` of `riscv.h`, a header
outside this module; kalloc.c (line 3) gives its value, 4096 bytes. -/
def PGSIZE : Nat := 4096

/-- One entry of `kmem[NCPU]`: the pages chained from `freelist` (their
addresses, in link order, the last one having `next == 0`) and the `int`
field `length`. -/
structure Kmem where
  freelist : List Nat
  length : Int
deriving DecidableEq, Repr

/-- The array `kmem[NCPU]`; `NCPU` (of `param.h`) is the length of the list. -/
abbrev KState := List Kmem

/-- The part of the memory layout that `kfree` checks: `kend` is the linker
symbol `end` and `PHYSTOP` the constant of `memlayout.h`. -/
structure Layout where
  kend : Nat
  PHYSTOP : Nat
deriving DecidableEq, Repr

/-- The state before `kinit` has freed anything: static zero initialisation. -/
def kboot (NCPU : Nat) : KState := List.replicate NCPU ⟨[], 0⟩

/-- All pages on all free lists, core 0 first. -/
def allPages (s : KState) : List Nat := (s.map Kmem.freelist).flatten

/-- The walk of `balance`, lines 56-61: starting with `tmp = freelist`, do
`tmp = tmp->next` `times` times, then cut the list after `tmp`.  The result is
the chain up to and including `tmp` and the chain `tmp->next`.  It is `none`
when `tmp` is null at a dereference (`tmp->next`). -/
def advance : List Nat → Nat → Option (List Nat × List Nat)
  | [], _ => none
  | p :: rest, 0 => some ([p], rest)
  | p :: rest, t + 1 =>
    match advance rest t with
    | none => none
    | some (r, tl) => some (p :: r, tl)

/-- The `for` loop of `balance` (lines 51-67) over the cores still to visit.
The result is the state after the steal, with the local variables `r` and
`length`.  C's `/` on `int` truncates toward zero (`Int.tdiv`).  A negative
`times` makes `while (times--)` run past the end of the list. -/
def balanceScan (id : Nat) (s : KState) : List Nat → Option (KState × List Nat × Int)
  | [] => some (s, [], 0)
  | i :: is =>
    if i = id then balanceScan id s is else
    match s[i]? with
    | none => none
    | some k =>
      if k.freelist = [] then balanceScan id s is else
      let times := Int.tdiv k.length 2
      if times < 0 then none else
      match advance k.freelist times.toNat with
      | none => none
      | some (r, rest) => some (s.set i ⟨rest, k.length - (times + 1)⟩, r, times + 1)

/-- The function `balance(id)`. -/
def balance (s : KState) (id : Nat) : Option KState :=
  match s[id]? with
  | none => none
  | some k =>
    if k.freelist ≠ [] then some s else
    match balanceScan id s (List.range s.length) with
    | none => none
    | some (s1, r, length) => some (s1.set id ⟨r, length⟩)

/-- The function `kfree(pa)` run on core `id`; `none` is `panic("kfree")`.
The list model needs `pa` not to be on a free list already (a double free
would tie the C chain into a cycle). -/
def kfree (L : Layout) (s : KState) (id : Nat) (pa : Nat) : Option KState :=
  if pa % PGSIZE ≠ 0 ∨ pa < L.kend ∨ pa ≥ L.PHYSTOP then none else
  match s[id]? with
  | none => none
  | some k => some (s.set id ⟨pa :: k.freelist, k.length + 1⟩)

/-- The function `kalloc()` run on core `id`.  The returned pointer is
`some r`, or `none` for the null pointer 0 (exhaustion). -/
def kalloc (s : KState) (id : Nat) : Option (KState × Option Nat) :=
  match balance s id with
  | none => none
  | some s1 =>
    match s1[id]? with
    | none => none
    | some k =>
      match k.freelist with
      | [] => some (s1.set id ⟨[], k.length - 1⟩, none)
      | r :: rest => some (s1.set id ⟨rest, k.length - 1⟩, some r)

/-- The allocator states reachable from boot by `kfree` and `kalloc` calls on
any cores, with two ghost lists: the pages handed out by `kalloc` and not yet
freed, and the pages seeded (freed without having been handed out, as
`freerange` does).  A freed page is not on a free list already. -/
inductive KReach (L : Layout) (NCPU : Nat) : KState → List Nat → List Nat → Prop
  | boot : KReach L NCPU (kboot NCPU) [] []
  | seed {s s' : KState} {al sd : List Nat} (id pa : Nat) :
      KReach L NCPU s al sd → id < NCPU → pa ∉ allPages s → pa ∉ al →
      kfree L s id pa = some s' → KReach L NCPU s' al (pa :: sd)
  | free {s s' : KState} {al sd : List Nat} (id pa : Nat) :
      KReach L NCPU s al sd → id < NCPU → pa ∉ allPages s → pa ∈ al →
      kfree L s id pa = some s' → KReach L NCPU s' (al.erase pa) sd
  | alloc {s s' : KState} {al sd : List Nat} (id r : Nat) :
      KReach L NCPU s al sd → id < NCPU →
      kalloc s id = some (s', some r) → KReach L NCPU s' (r :: al) sd
  | exhausted {s s' : KState} {al sd : List Nat} (id : Nat) :
      KReach L NCPU s al sd → id < NCPU →
      kalloc s id = some (s', none) → KReach L NCPU s' al sd

/-- The count of a core is the number of nodes of its list, or one less. -/
def CountOK (k : Kmem) : Prop :=
  (k.freelist.length : Int) - 1 ≤ k.length ∧ k.length ≤ k.freelist.length

/-- Every core satisfies `CountOK`. -/
def KInv (s : KState) : Prop := ∀ k ∈ s, CountOK k

/-- The outcome `res` of the scan of `balance` over the cores `is`: either no
visited sibling has a page and nothing changes, or the first pages `r` of one
sibling `i` are cut off and the sibling keeps a count that is still
`CountOK`. -/
def ScanPost (id : Nat) (s : KState) (is : List Nat)
    (res : Option (KState × List Nat × Int)) : Prop :=
  (res = some (s, [], 0) ∧
      ∀ i ∈ is, i ≠ id → ∀ h : i < s.length, (s[i]).freelist = []) ∨
  (∃ i r rest, ∃ h : i < s.length, i ≠ id ∧ i ∈ is ∧ r ≠ [] ∧
      r ++ rest = (s[i]).freelist ∧
      res = some (s.set i ⟨rest, (s[i]).length - (r.length : Int)⟩, r, (r.length : Int)) ∧
      CountOK ⟨rest, (s[i]).length - (r.length : Int)⟩)

/-- A sample layout: the kernel ends at 0x80021000, memory at 0x88000000. -/
def demoLayout : Layout := ⟨0x80021000, 0x88000000⟩

/-- A sample two-core state: core 1 has freed two pages, core 0 none. -/
def demoKState : KState := [⟨[], 0⟩, ⟨[0x80022000, 0x80021000], 2⟩]

/-! ## bio.c : the buffer cache -/

/-- The number of hash buckets, `#define NTABLE (13)`. -/
def NTABLE : Nat := 13

/-- The increment `x++` of a `uint`. -/
def uintInc (x : Nat) : Nat := (x + 1) % 2 ^ 32

/-- The decrement `x--` of a `uint`: 0 wraps to 2^32 - 1. -/
def uintDec (x : Nat) : Nat := (x + (2 ^ 32 - 1)) % 2 ^ 32

/-- The fields of `struct buf` that bio.c uses.  `valid` is the `int` flag
that only ever gets 0 or 1; `refcnt` is a `uint`, so its arithmetic is modulo
2^32; `data` is the block payload.  The `next` pointers are the bucket lists
of `Bcache`; the sleep-lock and the field `disk` (of the disk driver) are left
out. -/
structure Buf where
  valid : Bool
  dev : Nat
  blockno : Nat
  refcnt : Nat
  nblock : Nat
  timestamp : Nat
  data : List Nat
deriving DecidableEq, Repr

/-- The buffer cache: `buf i` is `bcache.buf[i]`, and `hashtable n` is the chain
`hashtable[n].head.next`, `->next`, ... as the list of the indices of its
buffers, in link order. -/
structure Bcache where
  buf : Nat → Buf
  hashtable : Nat → List Nat

/-- The assignment of new field values `x` to `bcache.buf[b]`. -/
def setBuf (s : Bcache) (b : Nat) (x : Buf) : Bcache :=
  { s with buf := Function.update s.buf b x }

/-- A zero-initialised buffer with a payload of `BSIZE` bytes. -/
def zeroBuf (BSIZE : Nat) : Buf :=
  { valid := false, dev := 0, blockno := 0, refcnt := 0, nblock := 0, timestamp := 0,
    data := List.replicate BSIZE 0 }

/-- The loop of `binit` (lines 48-53) over the buffers still to link. -/
def binitLoop (s : Bcache) : List Nat → Bcache
  | [] => s
  | b :: bs =>
    let nblock := b % NTABLE
    binitLoop
      { buf := Function.update s.buf b { s.buf b with nblock := nblock },
        hashtable := Function.update s.hashtable nblock (b :: s.hashtable nblock) } bs

/-- The function `binit()`, for a pool of `NBUF` buffers of `BSIZE` bytes
(both constants are in headers outside this module). -/
def binit (NBUF BSIZE : Nat) : Bcache :=
  binitLoop ⟨fun _ => zeroBuf BSIZE, fun _ => []⟩ (List.range NBUF)

/-- The loop of `findLRU` over the rest of the chain, with the local
variables `time` and `lru`. -/
def findLRULoop (s : Bcache) : List Nat → Nat → Option Nat → Option Nat
  | [], _, lru => lru
  | b :: rest, time, lru =>
    if (s.buf b).refcnt = 0 ∧ (s.buf b).timestamp ≤ time then
      findLRULoop s rest (s.buf b).timestamp (some b)
    else findLRULoop s rest time lru

/-- The function `findLRU(nblock)`; `none` is the null pointer. -/
def findLRU (s : Bcache) (nblock : Nat) : Option Nat :=
  findLRULoop s (s.hashtable nblock) 0x3FFFFFFF none

/-- The function `remove(nblock, p)`: unlink `p` from the chain of bucket
`nblock`.  When `p` is not on the chain the loop runs into the null pointer
(`none`). -/
def remove (s : Bcache) (nblock : Nat) (p : Nat) : Option Bcache :=
  if p ∈ s.hashtable nblock then
    some { s with hashtable := Function.update s.hashtable nblock ((s.hashtable nblock).erase p) }
  else none

/-- The values that `pblock` takes in the loop of `bget` (line 115):
`(nblock + 1) % NTABLE`, then one more each time, modulo `NTABLE`; after
`NTABLE - 1` values the next one is `nblock` and the loop ends. -/
def stealOrder (nblock : Nat) : List Nat :=
  (List.range (NTABLE - 1)).map (fun k => (nblock + 1 + k) % NTABLE)

/-- The loop of `bget` over other buckets (lines 115-133), for the values
of `pblock` still to come; running out of them is `panic("bget: no buffers")`,
the result `none`. -/
def bgetSteal (s : Bcache) (dev blockno nblock : Nat) : List Nat → Option (Bcache × Nat)
  | [] => none
  | pblock :: rest =>
    match findLRU s pblock with
    | some b =>
      let s1 : Bcache :=
        setBuf s b
            { s.buf b with dev := dev, blockno := blockno, valid := false, refcnt := 1,
                           nblock := nblock }
      match remove s1 pblock b with
      | none => none
      | some s2 =>
        some ({ s2 with hashtable :=
                  Function.update s2.hashtable nblock (b :: s2.hashtable nblock) }, b)
    | none => bgetSteal s dev blockno nblock rest

/-- The first buffer of the home bucket with the identity `(dev, blockno)`:
the loop of `bget` at lines 90-96. -/
def bgetLookup (s : Bcache) (dev blockno : Nat) : Option Nat :=
  (s.hashtable (blockno % NTABLE)).find?
    (fun b => decide ((s.buf b).dev = dev ∧ (s.buf b).blockno = blockno))

/-- The function `bget(dev, blockno)`: the new state and the buffer returned,
or `none` for the panic. -/
def bget (s : Bcache) (dev blockno : Nat) : Option (Bcache × Nat) :=
  let nblock := blockno % NTABLE
  match bgetLookup s dev blockno with
  | some b =>
    some (setBuf s b
              { s.buf b with refcnt := uintInc (s.buf b).refcnt }, b)
  | none =>
    match findLRU s nblock with
    | some b =>
      some (setBuf s b
                { s.buf b with dev := dev, blockno := blockno, valid := false, refcnt := 1 }, b)
    | none => bgetSteal s dev blockno nblock (stealOrder nblock)

/-- The function `bread(dev, blockno)`.  `disk dev blockno` is the content
that `virtio_disk_rw(b, 0)` puts into `b->data`.  The third component of the
result tells whether the device was read. -/
def bread (disk : Nat → Nat → List Nat) (s : Bcache) (dev blockno : Nat) :
    Option (Bcache × Nat × Bool) :=
  match bget s dev blockno with
  | none => none
  | some (s1, b) =>
    if (s1.buf b).valid = false then
      some (setBuf s1 b
                { s1.buf b with data := disk (s1.buf b).dev (s1.buf b).blockno, valid := true },
            b, true)
    else some (s1, b, false)

/-- The holder of buffer `b` overwrites `b->data`. -/
def setData (s : Bcache) (b : Nat) (d : List Nat) : Bcache :=
  { s with buf := Function.update s.buf b { s.buf b with data := d } }

/-- The function `brelse(b)` at tick count `ticks`, called by the holder of
`b`. -/
def brelse (s : Bcache) (b : Nat) (ticks : Nat) : Bcache :=
  let r := uintDec (s.buf b).refcnt
  setBuf s b
      { s.buf b with refcnt := r,
                     timestamp := if r = 0 then ticks else (s.buf b).timestamp }

/-- The function `bpin(b)`. -/
def bpin (s : Bcache) (b : Nat) : Bcache :=
  setBuf s b
      { s.buf b with refcnt := uintInc (s.buf b).refcnt }

/-- The function `bunpin(b)`. -/
def bunpin (s : Bcache) (b : Nat) : Bcache :=
  setBuf s b
      { s.buf b with refcnt := uintDec (s.buf b).refcnt }

/-- The state after `bget` has taken the free buffer `b` from bucket `pblock`
for the block `(dev, blockno)` of bucket `nblock` (lines 119-126). -/
def stealState (s : Bcache) (dev blockno nblock pblock b : Nat) : Bcache :=
  { buf := Function.update s.buf b
      { s.buf b with dev := dev, blockno := blockno, valid := false, refcnt := 1,
                     nblock := nblock },
    hashtable := Function.update
      (Function.update s.hashtable pblock ((s.hashtable pblock).erase b)) nblock
      (b :: Function.update s.hashtable pblock ((s.hashtable pblock).erase b) nblock) }

/-- The three ways in which `bget(dev, blockno)` returns buffer `b` in state
`s'`: a hit in the home bucket, a free buffer of the home bucket, a free
buffer of another bucket. -/
def BgetCase (s : Bcache) (dev blockno : Nat) (s' : Bcache) (b : Nat) : Prop :=
  (bgetLookup s dev blockno = some b ∧
      s' = setBuf s b { s.buf b with refcnt := uintInc (s.buf b).refcnt }) ∨
  (bgetLookup s dev blockno = none ∧ findLRU s (blockno % NTABLE) = some b ∧
      s' = setBuf s b
        { s.buf b with dev := dev, blockno := blockno, valid := false, refcnt := 1 }) ∨
  (bgetLookup s dev blockno = none ∧ findLRU s (blockno % NTABLE) = none ∧
      ∃ pblock ∈ stealOrder (blockno % NTABLE), findLRU s pblock = some b ∧
        s' = stealState s dev blockno (blockno % NTABLE) pblock b)

/-- A sample cache: a pool of 3 buffers of 4 bytes after `binit` and
`bget(1, 5)`, which took buffer 0 from bucket 0 into bucket 5. -/
def demoCache : Bcache := stealState (binit 3 4) 1 5 5 0 0

/-- The calls `bget(1, k)` for the block numbers `k` of the list, in order. -/
def pinBlocks (s : Bcache) : List Nat → Option Bcache
  | [] => some s
  | k :: ks =>
    match bget s 1 k with
    | none => none
    | some (s1, _) => pinBlocks s1 ks

/-- A sample cache of 30 buffers of 1024 bytes in which every buffer is held:
the state after `binit` and `bget(1, 0)`, ..., `bget(1, 29)`. -/
def fullyPinned : Bcache :=
  (pinBlocks (binit 30 1024) (List.range 30)).getD (binit 30 1024)

/-- The cache states reachable from `binit` for a pool of `NBUF` buffers by
`bget`, `bread`, `brelse`, `bpin`, `bunpin` and writes to the data of a
buffer, with any arguments. -/
inductive BReach (NBUF BSIZE : Nat) : Bcache → Prop
  | init : BReach NBUF BSIZE (binit NBUF BSIZE)
  | bget {s s' : Bcache} (dev blockno b : Nat) :
      BReach NBUF BSIZE s → bget s dev blockno = some (s', b) → BReach NBUF BSIZE s'
  | bread {s s' : Bcache} (disk : Nat → Nat → List Nat) (dev blockno b : Nat) (r : Bool) :
      BReach NBUF BSIZE s → bread disk s dev blockno = some (s', b, r) → BReach NBUF BSIZE s'
  | brelse {s : Bcache} (b ticks : Nat) :
      BReach NBUF BSIZE s → BReach NBUF BSIZE (brelse s b ticks)
  | bpin {s : Bcache} (b : Nat) : BReach NBUF BSIZE s → BReach NBUF BSIZE (bpin s b)
  | bunpin {s : Bcache} (b : Nat) : BReach NBUF BSIZE s → BReach NBUF BSIZE (bunpin s b)
  | setData {s : Bcache} (b : Nat) (d : List Nat) :
      BReach NBUF BSIZE s → BReach NBUF BSIZE (setData s b d)

/-- The cache states reachable from `binit` by calls that respect the
interface of bio.c ("Do not use the buffer after calling brelse"): `brelse`,
`bpin` and `bunpin` are applied only to a buffer that is held
(`refcnt > 0`). -/
inductive BReachC (NBUF BSIZE : Nat) : Bcache → Prop
  | init : BReachC NBUF BSIZE (binit NBUF BSIZE)
  | bread {s s' : Bcache} (disk : Nat → Nat → List Nat) (dev blockno b : Nat) (r : Bool) :
      BReachC NBUF BSIZE s → bread disk s dev blockno = some (s', b, r) →
      BReachC NBUF BSIZE s'
  | brelse {s : Bcache} (b ticks : Nat) :
      BReachC NBUF BSIZE s → 0 < (s.buf b).refcnt → BReachC NBUF BSIZE (brelse s b ticks)
  | bpin {s : Bcache} (b : Nat) :
      BReachC NBUF BSIZE s → 0 < (s.buf b).refcnt → BReachC NBUF BSIZE (bpin s b)
  | bunpin {s : Bcache} (b : Nat) :
      BReachC NBUF BSIZE s → 0 < (s.buf b).refcnt → BReachC NBUF BSIZE (bunpin s b)
  | setData {s : Bcache} (b : Nat) (d : List Nat) :
      BReachC NBUF BSIZE s → BReachC NBUF BSIZE (setData s b d)

/-- The bucket lists hold no buffer twice, no buffer is in two buckets, and
every entry is one of the `NBUF` buffers. -/
def BucketsOK (NBUF : Nat) (s : Bcache) : Prop :=
  (∀ j, (s.hashtable j).Nodup) ∧
  (∀ b j j', b ∈ s.hashtable j → b ∈ s.hashtable j' → j = j') ∧
  (∀ j, ∀ b ∈ s.hashtable j, b < NBUF)

/-- Each of the `NBUF` buffers is in the bucket that its field `nblock`
names. -/
def MemberOK (NBUF : Nat) (s : Bcache) : Prop :=
  ∀ i < NBUF, (s.buf i).nblock < NTABLE ∧ i ∈ s.hashtable (s.buf i).nblock

/-- Every held buffer is the one that the lookup of `bget` finds for its
`(dev, blockno)`. -/
def LookupOK (s : Bcache) : Prop :=
  ∀ b, 0 < (s.buf b).refcnt → bgetLookup s (s.buf b).dev (s.buf b).blockno = some b

/-- One step of the loop of `binit`, for buffer `b`. -/
def binitStep (s : Bcache) (b : Nat) : Bcache :=
  { buf := Function.update s.buf b { s.buf b with nblock := b % NTABLE },
    hashtable := Function.update s.hashtable (b % NTABLE) (b :: s.hashtable (b % NTABLE)) }

/-- The state of the loop of `binit` when the buffers below `k` are linked:
buffer `i < k` is in bucket `i % NTABLE` with `nblock` set, the lists hold
only buffers below `k`, none twice, and no buffer is held. -/
def BinitInv (k : Nat) (s : Bcache) : Prop :=
  (∀ j, (s.hashtable j).Nodup) ∧
  (∀ b j j', b ∈ s.hashtable j → b ∈ s.hashtable j' → j = j') ∧
  (∀ j, ∀ b ∈ s.hashtable j, b < k) ∧
  (∀ i < k, (s.buf i).nblock = i % NTABLE ∧ i ∈ s.hashtable (i % NTABLE)) ∧
  (∀ i, (s.buf i).refcnt = 0)

/-- A sample cache: a pool of 3 buffers of 4 bytes after `binit` and
`bread(1, 5)`, which returned buffer 0 with the block read from the device. -/
def demoRead : Bcache :=
  setBuf demoCache 0 { demoCache.buf 0 with data := [7, 7, 7, 7], valid := true }

/-! ## vma.c : the VMA manager -/

/-- The capacity of the per-process VMA table, `#define NVMA (16)`. -/
def NVMA : Nat := 16

/-- Modelled from the spec: the page-table bit `PTE_V` (entry valid) of
`riscv.h`, a header outside this module. -/
def PTE_V : Nat := 1

/-- Modelled from the spec: the page-table bit `PTE_R` (readable) of `riscv.h`. -/
def PTE_R : Nat := 2

/-- Modelled from the spec: the page-table bit `PTE_W` (writable) of `riscv.h`. -/
def PTE_W : Nat := 4

/-- Modelled from the spec: the page-table bit `PTE_U` (user) of `riscv.h`. -/
def PTE_U : Nat := 16

/-- The macro `PROT_READ` of vma.h. -/
def PROT_READ : Nat := PTE_V ||| PTE_R ||| PTE_U

/-- The macro `PROT_WRITE` of vma.h. -/
def PROT_WRITE : Nat := PTE_V ||| PTE_W ||| PTE_U

/-- Modelled from the spec: the macro `PA2PTE` of `riscv.h`, which puts a
physical page address above the ten flag bits of a page-table entry. -/
def PA2PTE (pa : Nat) : Nat := (pa >>> 12) <<< 10

/-- Modelled from the spec: the macro `PTE2PA` of `riscv.h`, the physical
page address of a page-table entry. -/
def PTE2PA (pte : Nat) : Nat := (pte >>> 10) <<< 12

/-- Modelled from the spec: the macro `PGROUNDDOWN` of `riscv.h`, the start of
the page that contains `a`. -/
def PGROUNDDOWN (a : Nat) : Nat := a / PGSIZE * PGSIZE

/-- Modelled from the spec: the macro `PGROUNDUP` of `riscv.h`, the next page
boundary at or above `sz`. -/
def PGROUNDUP (sz : Nat) : Nat := (sz + PGSIZE - 1) / PGSIZE * PGSIZE

/-- The value that an integer has when it is stored in a `uint64`: the
arithmetic of `uint64` is modulo 2^64. -/
def toU64 (x : Int) : Nat := (x % ((2 ^ 64 : Nat) : Int)).toNat

/-- The value that an integer has when it is stored in an `int` (32 bits,
two's complement): the result of `+=` and `-=` on an `int` field wraps into
the range from -2^31 to 2^31 - 1, as the 32-bit `addw` and `subw` of RISC-V
compute it. -/
def toI32 (x : Int) : Int :=
  (x + ((2 ^ 31 : Nat) : Int)) % ((2 ^ 32 : Nat) : Int) - ((2 ^ 31 : Nat) : Int)

/-- The `struct VMA` of vma.h.  `addr` is a `uint64`; the `int` fields are
integers (`prot`, a bit mask, a natural number); `f` names the file.  The
assignments of `vinstall` and `vuninstall` to `addr`, `length` and `offset`
store the wrapped value (`toU64`, `toI32`). -/
structure VMA where
  addr : Nat
  length : Int
  prot : Nat
  flags : Int
  offset : Int
  f : Nat
deriving DecidableEq, Repr

/-- Modelled from the spec: the fields of `struct file` that vma.c reads
(`file.h` is outside this module): `isInode` is `type == FD_INODE`, `ip` names
the inode. -/
structure File where
  isInode : Bool
  readable : Bool
  writable : Bool
  ip : Nat
deriving DecidableEq, Repr

/-- The calls that vma.c makes to the file system: `filedup(f)`,
`fileclose(f)` and `writei(ip, 0, src, off, n)` with the kernel address `src`. -/
inductive Event where
  | filedup (f : Nat)
  | fileclose (f : Nat)
  | writei (ip : Nat) (src : Nat) (off : Int) (n : Int)
deriving DecidableEq, Repr

/-- The state that vma.c works on, for the current process (`struct proc` is
in `proc.h`, outside this module): `sz` is `p->sz`, `vma` the table
`p->vma[NVMA]`, `pagetable` maps a page number `va / PGSIZE` to its leaf entry
if the slot exists, `kmem` is the allocator, `mem pa` the bytes of the
physical page at `pa`, `file` the open files, and `log` the calls made to the
file system so far, oldest first. -/
structure VState where
  sz : Nat
  vma : List VMA
  pagetable : Nat → Option Nat
  kmem : KState
  mem : Nat → List Nat
  file : Nat → File
  log : List Event

/-- Modelled from the spec: the page-table primitive
`walk(pagetable, va, alloc)` of `vm.c`, which is outside this module.  It
returns the slot of the page of `va` (`none` is the null pointer: no slot);
with `alloc` set a missing slot is created holding 0.  The page-table pages
that the real `walk` allocates are not counted. -/
def walk (pt : Nat → Option Nat) (va : Nat) (alloc : Bool) : (Nat → Option Nat) × Option Nat :=
  match pt (va / PGSIZE) with
  | some _ => (pt, some (va / PGSIZE))
  | none =>
    if alloc then (Function.update pt (va / PGSIZE) (some 0), some (va / PGSIZE))
    else (pt, none)

/-- The page addresses `va`, `va + PGSIZE`, ... below `e`: the values of the
loop variable of `for (; va < end; va += PGSIZE)`. -/
def pageSteps (va e : Nat) : List Nat :=
  (List.range ((e - va + PGSIZE - 1) / PGSIZE)).map (fun k => va + k * PGSIZE)

/-- The loop of `vmap` (lines 17-23) over the pages still to do; `none` is
`panic("vmap: failed")`. -/
def vmapLoop (pt : Nat → Option Nat) : List Nat → Option (Nat → Option Nat)
  | [] => some pt
  | va :: rest =>
    match walk pt va true with
    | (_, none) => none
    | (pt1, some slot) => vmapLoop (Function.update pt1 slot (some 0)) rest

/-- The function `vmap(pagetable, vma)`: the page table afterwards (the
function returns 0), or `none` for the panic.  Line 15 is `uint64`
arithmetic: the sum and the rounding are modulo 2^64. -/
def vmap (pt : Nat → Option Nat) (vma : VMA) : Option (Nat → Option Nat) :=
  vmapLoop pt
    (pageSteps (PGROUNDDOWN vma.addr)
      (PGROUNDUP (toU64 ((vma.addr : Int) + vma.length - 1)) % 2 ^ 64))

/-- The body of the loop of `vunmap` (lines 40-47) for the page at `va`: the
`writei` call that it makes, if any. -/
def vunmapStep (s : VState) (vma : VMA) (e : Nat) (va : Nat) : List Event :=
  match (walk s.pagetable va false).2 with
  | none => []
  | some slot =>
    match s.pagetable slot with
    | none => []
    | some pte =>
      if pte &&& PROT_WRITE ≠ 0 then
        [Event.writei (s.file vma.f).ip (PTE2PA pte)
          (vma.offset + ((va : Int) - vma.addr))
          (if (e : Int) - va < PGSIZE then (e : Int) - va else PGSIZE)]
      else []

/-- The loop of `vunmap` (lines 34-48): the `writei` calls that it makes, in
order, for `va = vma->addr` up to `end = va + vma->length`. -/
def vunmapLoop (s : VState) (vma : VMA) : List Event :=
  (pageSteps vma.addr ((vma.addr : Int) + vma.length).toNat).flatMap
    (vunmapStep s vma ((vma.addr : Int) + vma.length).toNat)

/-- The function `vunmap(pagetable, vma)`: the state afterwards and the
value returned. -/
def vunmap (s : VState) (vma : VMA) : VState × Int :=
  if vma.addr % PGSIZE ≠ 0 then (s, -1)
  else if vma.flags = 0 then (s, 0)
  else ({ s with log := s.log ++ vunmapLoop s vma }, 0)

/-- The loop of `vget` from table index `i` on: the index of the first VMA
that has `length > 0` and contains `va`, with the VMA. -/
def vgetFrom (va : Nat) : List VMA → Nat → Option (Nat × VMA)
  | [], _ => none
  | v :: rest, i =>
    if 0 < v.length ∧ va ≥ v.addr ∧ (va : Int) < v.addr + v.length then some (i, v)
    else vgetFrom va rest (i + 1)

/-- The function `vget(va)`: `none` is the null pointer. -/
def vget (s : VState) (va : Nat) : Option (Nat × VMA) := vgetFrom va s.vma 0

/-- The loop of `vinstall` (lines 86-91) from table index `i` on: the index
of the first slot with `length == 0`. -/
def freeSlotFrom : List VMA → Nat → Option Nat
  | [], _ => none
  | v :: rest, i => if v.length = 0 then some i else freeSlotFrom rest (i + 1)

/-- The function `vinstall(vma)`: the state afterwards and the value
returned, or `none` for the panic of `vmap`.  Lines 75-76 work on `uint64`:
`PGROUNDUP(p->sz)` wraps to 0 when `p->sz` is above 2^64 - 4096, and
`vma->addr + vma->length` is taken modulo 2^64 (`length` sign-extended). -/
def vinstall (s : VState) (vma : VMA) : Option (VState × Int) :=
  if vma.length = 0 then some (s, 0)
  else if (s.file vma.f).isInode = false then some (s, -1)
  else if (s.file vma.f).readable = false then some (s, -1)
  else if (s.file vma.f).writable = false ∧ vma.flags ≠ 0 ∧ vma.prot &&& PTE_W ≠ 0 then
    some (s, -1)
  else
    let vma1 : VMA :=
      if vma.addr = 0 then { vma with addr := PGROUNDUP s.sz % 2 ^ 64 } else vma
    let sz1 : Nat := if vma.addr = 0 then toU64 ((vma1.addr : Int) + vma1.length) else s.sz
    match vmap s.pagetable vma1 with
    | none => none
    | some pt1 =>
      let s1 : VState :=
        { s with sz := sz1, pagetable := pt1, log := s.log ++ [Event.filedup vma1.f] }
      match freeSlotFrom s1.vma 0 with
      | some i => some ({ s1 with vma := s1.vma.set i vma1 }, 0)
      | none => some (s1, -1)

/-- The VMA that `vuninstall` leaves in the table (lines 120-127): the field
updates made through the pointer `vma`.  `vma->addr += length` is `uint64`
arithmetic, `vma->length -= length` and `vma->offset += length` are `int`
arithmetic. -/
def remainingVMA (vma : VMA) (addr : Nat) (length : Int) : VMA :=
  if addr = vma.addr then
    { vma with addr := toU64 ((vma.addr : Int) + length),
               length := toI32 (vma.length - length),
               offset := toI32 (vma.offset + length) }
  else { vma with length := toI32 (vma.length - length) }

/-- The local `nvma` that `vuninstall` hands to `vunmap` (lines 116-127): the
range to remove, with its file offset. -/
def removedVMA (vma : VMA) (addr : Nat) (length : Int) : VMA :=
  if addr = vma.addr then { vma with addr := addr, length := length }
  else { vma with addr := addr, length := length,
                  offset := vma.offset + ((addr : Int) - vma.addr) }

/-- The function `vuninstall(addr, length)`: the state afterwards and the
value returned. -/
def vuninstall (s : VState) (addr : Nat) (length : Int) : VState × Int :=
  match vget s addr with
  | none => (s, -1)
  | some (i, vma) =>
    if vma.length < length then (s, -1)
    else
      let s1 : VState := { s with vma := s.vma.set i (remainingVMA vma addr length) }
      let r := vunmap s1 (removedVMA vma addr length)
      if r.2 < 0 then (r.1, -1)
      else if (remainingVMA vma addr length).length = 0 then
        ({ r.1 with log := r.1.log ++ [Event.fileclose (remainingVMA vma addr length).f] }, 0)
      else (r.1, 0)

/-- The function `vfault(pagetable, va)` for the page table of the current
process, run on core `cpu`.  `readi ip off n` is the result of
`readi(ip, 0, mem, off, n)`: `none` for a negative return value, else the
bytes read.  The result is the state afterwards and the value returned;
`none` is `panic("vfault: va < addr")`, the dereference of a null `pte`, or a
fault inside `kalloc`. -/
def vfault (readi : Nat → Int → Nat → Option (List Nat)) (cpu : Nat) (s : VState) (va : Nat) :
    Option (VState × Int) :=
  match vget s va with
  | none => some (s, -1)
  | some (_, vma) =>
    let va := PGROUNDDOWN va
    if va < vma.addr then none
    else
      match walk s.pagetable va true with
      | (_, none) => none
      | (pt, some slot) =>
        let pte := (pt slot).getD 0
        if pte &&& PTE_V = 0 then
          let offset : Int := vma.offset + ((va : Int) - vma.addr)
          match kalloc s.kmem cpu with
          | none => none
          | some (km, none) => some ({ s with pagetable := pt, kmem := km }, -1)
          | some (km, some mem) =>
            match readi (s.file vma.f).ip offset PGSIZE with
            | none =>
              some ({ s with pagetable := pt, kmem := km,
                             mem := Function.update s.mem mem (List.replicate PGSIZE 5) }, -1)
            | some bytes =>
              some ({ s with
                      pagetable := Function.update pt slot (some (PA2PTE mem ||| vma.prot)),
                      kmem := km,
                      mem := Function.update s.mem mem
                        (bytes ++ List.replicate (PGSIZE - bytes.length) 0) }, 0)
        else some ({ s with pagetable := pt }, 0)

/-- A sample process of size 0x4000 with an empty VMA table, an empty page
table, the sample allocator state, and open files that are readable and
writable inodes. -/
def demoProc : VState :=
  { sz := 0x4000, vma := List.replicate NVMA ⟨0, 0, 0, 0, 0, 0⟩, pagetable := fun _ => none,
    kmem := demoKState, mem := fun _ => [], file := fun _ => ⟨true, true, true, 7⟩, log := [] }

/-- A sample file read: the file holds the three bytes 1, 2, 3. -/
def demoReadi : Nat → Int → Nat → Option (List Nat) :=
  fun _ off n => some (([1, 2, 3].drop off.toNat).take n)

/-- A sample request: one page of file 3 from offset 0, shared, readable and
writable, at an address for `vinstall` to choose. -/
def demoVMA : VMA := ⟨0, 4096, PROT_READ ||| PROT_WRITE, 1, 0, 3⟩

/-- The state and the value returned after `op`, with `dflt` for a panic. -/
def afterOp (dflt : VState) (op : Option (VState × Int)) : VState × Int := op.getD (dflt, -1)

/-- The sample process after `vinstall` of the sample request. -/
def demoMapped : VState := (afterOp demoProc (vinstall demoProc demoVMA)).1

/-- The sample process after a page fault at 0x4000 on core 0. -/
def demoFaulted : VState := (afterOp demoMapped (vfault demoReadi 0 demoMapped 0x4000)).1

/-- The sample request as `vinstall` stores it: at address 0x4000. -/
def demoInstalled : VMA := ⟨0x4000, 4096, PROT_READ ||| PROT_WRITE, 1, 0, 3⟩

/-- A sample request with no protection bit at all (`prot == 0`), private. -/
def demoNoProt : VMA := ⟨0, 4096, 0, 0, 0, 3⟩

/-- The sample process after `vinstall` of the request without protection
bits. -/
def demoNoProtMapped : VState := (afterOp demoProc (vinstall demoProc demoNoProt)).1

/-- A sample request of length zero. -/
def demoZeroLen : VMA := ⟨0, 0, PROT_READ, 1, 0, 3⟩

/-- The sample process with open files that are readable but not writable. -/
def demoReadOnlyProc : VState := { demoProc with file := fun _ => ⟨true, true, false, 7⟩ }

/-- A sample request of negative length (-16385), private and read-only, at
an address for `vinstall` to choose: no test of `vinstall` rejects it. -/
def demoNegative : VMA := ⟨0, -16385, PROT_READ, 0, 0, 3⟩

/-- The sample process after `vinstall` of the request of negative length:
its size is 0x4000 - 16385 as a `uint64`, that is 2^64 - 1. -/
def demoTop : VState := (afterOp demoProc (vinstall demoProc demoNegative)).1

/-- The sample request with its offset changed to 2^31 - 4096, the largest
page-aligned value of an `int`. -/
def demoHighOffset : VMA := ⟨0, 8192, PROT_READ ||| PROT_WRITE, 1, 2 ^ 31 - 4096, 3⟩

/-- The sample process after `vinstall` of the request with the offset
2^31 - 4096, which is stored as `(0x4000, 8192, 2^31 - 4096)`. -/
def demoHighOffsetMapped : VState := (afterOp demoProc (vinstall demoProc demoHighOffset)).1

/-- The file references that the calls of the log have taken on file `f` and
not released: the `filedup(f)` calls minus the `fileclose(f)` calls. -/
def fileRefs (log : List Event) (f : Nat) : Int :=
  (log.count (Event.filedup f) : Int) - (log.count (Event.fileclose f) : Int)

/-- The number of occupied slots (`length > 0`) of the VMA table. -/
def occupied (s : VState) : Nat := (s.vma.filter (fun v => decide (0 < v.length))).length

/-- The state after `n` calls `vinstall(vma)` in a row. -/
def vinstallN (s : VState) (vma : VMA) : Nat → VState
  | 0 => s
  | n + 1 => (afterOp (vinstallN s vma n) (vinstall (vinstallN s vma n) vma)).1

/-- A sample request: one page of file 3, shared and read-only. -/
def demoSharedRO : VMA := ⟨0, 4096, PROT_READ, 1, 0, 3⟩

/-- The sample process after `vinstall` of the shared read-only request and
a page fault at 0x4000 on core 0. -/
def demoROFaulted : VState :=
  (afterOp demoProc (vfault demoReadi 0
    (afterOp demoProc (vinstall demoProc demoSharedRO)).1 0x4000)).1

/-- The calls `kfree(pa)` on core `id` for the pages of the list, in order. -/
def kfreeAll (L : Layout) (s : KState) (id : Nat) : List Nat → Option KState
  | [] => some s
  | pa :: rest =>
    match kfree L s id pa with
    | none => none
    | some s1 => kfreeAll L s1 id rest

/-- A sample two-core state: core 1 has freed the eight pages 0x80021000 to
0x80028000, core 0 none. -/
def demoEight : KState :=
  [⟨[], 0⟩,
   ⟨[0x80028000, 0x80027000, 0x80026000, 0x80025000, 0x80024000, 0x80023000, 0x80022000,
     0x80021000], 8⟩]

/-- A sample two-core state in which a count is one less than the number of
nodes: core 1 has called `kalloc` on the empty boot state and has then freed
one page. -/
def demoShortCount : KState := [⟨[], 0⟩, ⟨[0x80021000], 0⟩]

/-! ## Theorems about kalloc.c -/

theorem advance_of_lt (l : List Nat) (t : Nat) (h : t < l.length) :
    advance l t = some (l.take (t + 1), l.drop (t + 1)) := by
  induction l generalizing t with
  | nil => simp at h
  | cons p rest ih =>
    cases t with
    | zero => simp [advance]
    | succ t =>
      have h' : t < rest.length := by simpa using h
      simp [advance, ih t h']

theorem count_allPages_set (p : Nat) (s : KState) (i : Nat) (k : Kmem) (h : i < s.length) :
    (allPages (s.set i k)).count p + (s[i]).freelist.count p
      = (allPages s).count p + k.freelist.count p := by
  induction s generalizing i with
  | nil => simp at h
  | cons a rest ih =>
    cases i with
    | zero => simp [allPages, List.count_append]; omega
    | succ i =>
      have h' : i < rest.length := by simpa using h
      have := ih i h'
      simp [allPages, List.count_append] at this ⊢
      omega

theorem kinv_set (s : KState) (i : Nat) (k : Kmem) (hs : KInv s) (hk : CountOK k) :
    KInv (s.set i k) := by
  intro x hx
  rcases List.mem_or_eq_of_mem_set hx with h | h
  · exact hs x h
  · exact h ▸ hk

theorem kinv_kboot (n : Nat) : KInv (kboot n) := by
  intro k hk
  have : k = ⟨[], 0⟩ := List.eq_of_mem_replicate hk
  subst this
  simp [CountOK]

theorem tdiv_two_bounds (len : Int) (n : Nat) (hn : 0 < n)
    (h1 : (n : Int) - 1 ≤ len) (h2 : len ≤ n) :
    0 ≤ Int.tdiv len 2 ∧ (Int.tdiv len 2).toNat < n ∧ Int.tdiv len 2 + 1 ≤ len + 1 := by
  have h0 : 0 ≤ len := by omega
  have hd : Int.tdiv len 2 = len / 2 := Int.tdiv_eq_ediv h0 (by norm_num)
  rw [hd]
  omega

/-- What the scan of `balance` does on a state satisfying `KInv`: either no
visited sibling has a page and nothing changes, or the first pages `r` of one
sibling `i` are cut off, with an exact count. -/
theorem balanceScan_spec (id : Nat) (s : KState) (hs : KInv s) (is : List Nat)
    (his : ∀ i ∈ is, i < s.length) : ScanPost id s is (balanceScan id s is) := by
  unfold ScanPost
  induction is with
  | nil => left; simp [balanceScan]
  | cons i is ih =>
    have his' : ∀ j ∈ is, j < s.length := fun j hj => his j (List.mem_cons_of_mem _ hj)
    have hi : i < s.length := his i (List.mem_cons_self _ _)
    have hrec : balanceScan id s is = balanceScan id s (i :: is) →
        (∀ h : i < s.length, i ≠ id → (s[i]).freelist = []) →
        ScanPost id s (i :: is) (balanceScan id s (i :: is)) := fun heq hemp => by
      have ih' := ih his'
      unfold ScanPost at ih' ⊢
      rcases ih' with ⟨h1, h2⟩ | ⟨j, r, rest, hj, hne, hmem, hr, happ, hb, hc⟩
      · left
        refine ⟨heq ▸ h1, ?_⟩
        intro j hj hjid hlt
        rcases List.mem_cons.1 hj with rfl | hj'
        · exact hemp hlt hjid
        · exact h2 j hj' hjid hlt
      · right
        exact ⟨j, r, rest, hj, hne, List.mem_cons_of_mem _ hmem, hr, happ, heq ▸ hb, hc⟩
    by_cases hid : i = id
    · exact hrec (by simp [balanceScan, hid]) (fun _ h => absurd hid h)
    · by_cases hemp : (s[i]).freelist = []
      · exact hrec (by simp [balanceScan, hid, List.getElem?_eq_getElem hi, hemp])
          (fun _ _ => hemp)
      · right
        have hk : CountOK (s[i]) := hs _ (List.getElem_mem hi)
        have hpos : 0 < (s[i]).freelist.length := List.length_pos.2 hemp
        obtain ⟨hk1, hk2⟩ := hk
        obtain ⟨b0, b1, _⟩ := tdiv_two_bounds (s[i]).length (s[i]).freelist.length hpos hk1 hk2
        have hadv := advance_of_lt (s[i]).freelist (Int.tdiv (s[i]).length 2).toNat b1
        have hlen : (((s[i]).freelist.take ((Int.tdiv (s[i]).length 2).toNat + 1)).length : Int)
            = Int.tdiv (s[i]).length 2 + 1 := by
          rw [List.length_take, Nat.min_eq_left (by omega)]
          push_cast
          rw [Int.toNat_of_nonneg b0]
        refine ⟨i, (s[i]).freelist.take ((Int.tdiv (s[i]).length 2).toNat + 1),
          (s[i]).freelist.drop ((Int.tdiv (s[i]).length 2).toNat + 1), hi, hid,
          List.mem_cons_self _ _, ?_, List.take_append_drop _ _, ?_, ?_⟩
        · intro h
          have := congrArg List.length h
          rw [List.length_take, Nat.min_eq_left (by omega)] at this
          simp at this
        · rw [hlen]
          simp [balanceScan, hid, List.getElem?_eq_getElem hi, hemp, not_lt.2 b0, hadv]
        · rw [hlen]
          constructor
          · simp only [List.length_drop]
            have := Int.toNat_of_nonneg b0
            omega
          · simp only [List.length_drop]
            have := Int.toNat_of_nonneg b0
            omega

/-- On a state satisfying `KInv`, `balance` returns; it keeps `KInv` and the
pages, and leaves the caller's list empty only when every list was empty. -/
theorem balance_spec (s : KState) (id : Nat) (hs : KInv s) (hid : id < s.length) :
    ∃ s1, balance s id = some s1 ∧ KInv s1 ∧
      (∀ p, (allPages s1).count p = (allPages s).count p) ∧
      ∃ h1 : id < s1.length,
        ((s1[id]).freelist = [] ↔ ∀ k ∈ s, k.freelist = []) ∧
        ((s1[id]).freelist = [] → (s1[id]).length = 0) := by
  by_cases hemp : (s[id]).freelist = []
  · have hsc := balanceScan_spec id s hs (List.range s.length)
      (fun i hi => List.mem_range.1 hi)
    unfold ScanPost at hsc
    rcases hsc with ⟨h1, h2⟩ | ⟨i, r, rest, hi, hne, _, hr, happ, hb, hc⟩
    · refine ⟨s.set id ⟨[], 0⟩, ?_, ?_, ?_, ?_⟩
      · simp [balance, List.getElem?_eq_getElem hid, hemp, h1]
      · exact kinv_set s id _ hs (by simp [CountOK])
      · intro p
        have := count_allPages_set p s id ⟨[], 0⟩ hid
        simp [hemp] at this
        exact this
      · refine ⟨by simpa using hid, ?_, ?_⟩
        · simp only [List.getElem_set_self, true_iff]
          intro k hk
          obtain ⟨j, hj, rfl⟩ := List.getElem_of_mem hk
          by_cases hjid : j = id
          · subst hjid; exact hemp
          · exact h2 j (List.mem_range.2 hj) hjid hj
        · simp
    · refine ⟨(s.set i ⟨rest, (s[i]).length - (r.length : Int)⟩).set id ⟨r, (r.length : Int)⟩,
        ?_, ?_, ?_, ?_⟩
      · simp [balance, List.getElem?_eq_getElem hid, hemp, hb]
      · exact kinv_set _ id _ (kinv_set s i _ hs hc) (by simp [CountOK])
      · intro p
        have hid0 : id < (s.set i ⟨rest, (s[i]).length - (r.length : Int)⟩).length := by
          simpa using hid
        have e1 := count_allPages_set p _ id ⟨r, (r.length : Int)⟩ hid0
        have e2 := count_allPages_set p s i ⟨rest, (s[i]).length - (r.length : Int)⟩ hi
        have e3 : ((s.set i ⟨rest, (s[i]).length - (r.length : Int)⟩)[id]).freelist = [] := by
          rw [List.getElem_set_ne hne]; exact hemp
        rw [e3] at e1
        rw [← happ] at e2
        simp [List.count_append] at e1 e2
        omega
      · refine ⟨by simpa using hid, ?_, ?_⟩
        · simp only [List.getElem_set_self]
          constructor
          · intro h; exact absurd h hr
          · intro h
            have := h _ (List.getElem_mem hi)
            rw [← happ] at this
            simp at this
            exact absurd this.1 hr
        · simp only [List.getElem_set_self]
          intro h; exact absurd h hr
  · refine ⟨s, ?_, hs, fun _ => rfl, hid, ?_, ?_⟩
    · simp [balance, List.getElem?_eq_getElem hid, hemp]
    · constructor
      · intro h; exact absurd h hemp
      · intro h; exact absurd (h _ (List.getElem_mem hid)) hemp
    · intro h; exact absurd h hemp

/-- On a state satisfying `KInv`, `kalloc` returns; it keeps the number of
cores and `KInv`, returns 0 exactly when every list is empty, and takes
exactly the returned page out of the lists. -/
theorem kalloc_spec (s : KState) (id : Nat) (hs : KInv s) (hid : id < s.length) :
    ∃ s' r, kalloc s id = some (s', r) ∧ s'.length = s.length ∧ KInv s' ∧
      (r = none ↔ ∀ k ∈ s, k.freelist = []) ∧
      (∀ p, (r.toList ++ allPages s').count p = (allPages s).count p) := by
  obtain ⟨s1, hb, hinv1, hcnt, h1, hiff, hzero⟩ := balance_spec s id hs hid
  have hlen1 : s1.length = s.length := by
    unfold balance at hb
    rw [List.getElem?_eq_getElem hid] at hb
    simp only at hb
    split at hb
    · simp at hb; rw [← hb]
    · split at hb
      · simp at hb
      · rename_i s0 r len heq
        have hsc := balanceScan_spec id s hs (List.range s.length)
          (fun i hi => List.mem_range.1 hi)
        unfold ScanPost at hsc
        simp at hb
        rcases hsc with ⟨h1, _⟩ | ⟨i, r', rest, hi, _, _, _, _, hb', _⟩
        · rw [h1] at heq; simp at heq; rw [← hb, ← heq.1]; simp
        · rw [hb'] at heq; simp at heq; rw [← hb, ← heq.1]; simp
  cases hfl : (s1[id]).freelist with
  | nil =>
    refine ⟨s1.set id ⟨[], (s1[id]).length - 1⟩, none, ?_, by simpa using hlen1, ?_, ?_, ?_⟩
    · simp [kalloc, hb, List.getElem?_eq_getElem h1, hfl]
    · exact kinv_set s1 id _ hinv1 (by simp [CountOK, hzero hfl])
    · simp only [true_iff]; exact hiff.1 hfl
    · intro p
      have := count_allPages_set p s1 id ⟨[], (s1[id]).length - 1⟩ h1
      simp [hfl] at this
      simp [this, hcnt p]
  | cons r rest =>
    refine ⟨s1.set id ⟨rest, (s1[id]).length - 1⟩, some r, ?_, by simpa using hlen1, ?_, ?_, ?_⟩
    · simp [kalloc, hb, List.getElem?_eq_getElem h1, hfl]
    · have hk : CountOK (s1[id]) := hinv1 _ (List.getElem_mem h1)
      refine kinv_set s1 id _ hinv1 ?_
      unfold CountOK at hk ⊢
      rw [hfl] at hk
      simp at hk ⊢
      omega
    · constructor
      · intro h; simp at h
      · intro h
        have := hiff.2 h
        rw [hfl] at this; simp at this
    · intro p
      have := count_allPages_set p s1 id ⟨rest, (s1[id]).length - 1⟩ h1
      rw [hfl] at this
      simp [List.count_cons] at this ⊢
      rw [← hcnt p]
      omega

/-- A `kfree` that does not panic keeps the number of cores and `KInv` and
adds exactly `pa` to the lists. -/
theorem kfree_spec (L : Layout) (s s' : KState) (id pa : Nat) (hs : KInv s)
    (h : kfree L s id pa = some s') :
    id < s.length ∧ s'.length = s.length ∧ KInv s' ∧
      (∀ p, (allPages s').count p = (pa :: allPages s).count p) := by
  unfold kfree at h
  split at h
  · simp at h
  · by_cases hid : id < s.length
    · rw [List.getElem?_eq_getElem hid] at h
      simp at h
      subst h
      refine ⟨hid, by simp, ?_, ?_⟩
      · have hk : CountOK (s[id]) := hs _ (List.getElem_mem hid)
        refine kinv_set s id _ hs ?_
        unfold CountOK at hk ⊢
        simp at hk ⊢
        omega
      · intro p
        have := count_allPages_set p s id ⟨pa :: (s[id]).freelist, (s[id]).length + 1⟩ hid
        simp [List.count_cons] at this ⊢
        omega
    · rw [List.getElem?_eq_none (by omega)] at h
      simp at h

theorem allPages_kboot (n : Nat) : allPages (kboot n) = [] := by
  induction n with
  | zero => rfl
  | succ n ih =>
    simp only [allPages, kboot, List.replicate_succ, List.map_cons, List.flatten_cons,
      List.nil_append] at ih ⊢
    exact ih

/-- Every reachable allocator state has `NCPU` cores, satisfies `KInv`, and
its free pages together with the pages handed out are the pages seeded. -/
theorem kreach_inv (L : Layout) (NCPU : Nat) (s : KState) (al sd : List Nat)
    (h : KReach L NCPU s al sd) :
    s.length = NCPU ∧ KInv s ∧ (allPages s ++ al).Perm sd := by
  induction h with
  | boot => exact ⟨by simp [kboot], kinv_kboot NCPU, by simp [allPages_kboot]⟩
  | seed id pa _ _ _ _ hf ih =>
    obtain ⟨hlen, hinv, hperm⟩ := ih
    obtain ⟨_, hl, hi, hc⟩ := kfree_spec L _ _ id pa hinv hf
    refine ⟨hl.trans hlen, hi, ?_⟩
    have h1 := List.perm_iff_count.2 hc
    exact (h1.append_right _).trans (List.Perm.cons pa hperm)
  | free id pa _ _ _ hmem hf ih =>
    obtain ⟨hlen, hinv, hperm⟩ := ih
    obtain ⟨_, hl, hi, hc⟩ := kfree_spec L _ _ id pa hinv hf
    refine ⟨hl.trans hlen, hi, ?_⟩
    have h1 := List.perm_iff_count.2 hc
    refine ((h1.append_right _).trans ?_).trans hperm
    have h2 := List.perm_cons_erase hmem
    exact (List.perm_middle.symm.trans (List.Perm.append_left _ h2.symm))
  | alloc id r _ hid hk ih =>
    obtain ⟨hlen, hinv, hperm⟩ := ih
    obtain ⟨s2, r2, hk2, hl, hi, _, hc⟩ := kalloc_spec _ id hinv (hlen ▸ hid)
    rw [hk] at hk2
    simp only [Option.some.injEq, Prod.mk.injEq] at hk2
    obtain ⟨rfl, rfl⟩ := hk2
    refine ⟨hl.trans hlen, hi, ?_⟩
    have h1 := List.perm_iff_count.2 hc
    simp only [Option.toList_some, List.singleton_append] at h1
    exact (List.perm_middle.trans (h1.append_right _)).trans hperm
  | exhausted id _ hid hk ih =>
    obtain ⟨hlen, hinv, hperm⟩ := ih
    obtain ⟨s2, r2, hk2, hl, hi, _, hc⟩ := kalloc_spec _ id hinv (hlen ▸ hid)
    rw [hk] at hk2
    simp only [Option.some.injEq, Prod.mk.injEq] at hk2
    obtain ⟨rfl, rfl⟩ := hk2
    refine ⟨hl.trans hlen, hi, ?_⟩
    have h1 := List.perm_iff_count.2 hc
    simp only [Option.toList_none, List.nil_append] at h1
    exact (h1.append_right _).trans hperm

theorem demoKState_reach : KReach demoLayout 2 demoKState [] [0x80022000, 0x80021000] :=
  have h1 : KReach demoLayout 2 [⟨[], 0⟩, ⟨[0x80021000], 1⟩] [] [0x80021000] :=
    KReach.seed 1 0x80021000 KReach.boot (by decide) (by decide) (by decide) (by decide)
  KReach.seed 1 0x80022000 h1 (by decide) (by decide) (by decide) (by decide)

/-- C1 (evaluation at the failing input): on the boot state of an 8-core
machine, where every list is empty, `kalloc` on core 0 returns 0 and leaves
`kmem[0].length == -1` although no node is reachable from `kmem[0].freelist`;
the resulting state is reachable. -/
theorem kalloc_exhausted_count_mismatch :
    kalloc (kboot 8) 0
      = some (⟨[], -1⟩ :: List.replicate 7 ⟨[], 0⟩, none) ∧
    KReach ⟨0x80021000, 0x88000000⟩ 8 (⟨[], -1⟩ :: List.replicate 7 ⟨[], 0⟩) [] [] ∧
    (⟨[], -1⟩ : Kmem).length ≠ ((⟨[], -1⟩ : Kmem).freelist.length : Int) :=
  ⟨by decide, KReach.exhausted 0 KReach.boot (by decide) (by decide), by decide⟩

/-- C2: allocator conservation.  In every reachable allocator state the pages
on all free lists together with the pages allocated and not yet freed are the
pages seeded; and on every core `c`, a `kfree(pa)` of a page that is not free
already adds exactly `pa` to the union of the free lists, `kalloc` returns and
takes exactly the returned page out of the union (nothing when it returns 0),
and `balance` returns and only moves pages between lists. -/
theorem allocator_conservation (L : Layout) (NCPU : Nat) (s : KState) (al sd : List Nat)
    (h : KReach L NCPU s al sd) (c : Nat) (hc : c < NCPU) :
    (allPages s ++ al).Perm sd ∧
    (∀ pa s', pa ∉ allPages s → kfree L s c pa = some s' →
      (allPages s').Perm (pa :: allPages s)) ∧
    (∃ s' r, kalloc s c = some (s', r) ∧ (r.toList ++ allPages s').Perm (allPages s)) ∧
    (∃ s1, balance s c = some s1 ∧ (allPages s1).Perm (allPages s)) := by
  obtain ⟨hlen, hinv, hperm⟩ := kreach_inv L NCPU s al sd h
  refine ⟨hperm, ?_, ?_, ?_⟩
  · intro pa s' _ hf
    exact List.perm_iff_count.2 (kfree_spec L s s' c pa hinv hf).2.2.2
  · obtain ⟨s', r, hk, _, _, _, hcnt⟩ := kalloc_spec s c hinv (hlen ▸ hc)
    exact ⟨s', r, hk, List.perm_iff_count.2 hcnt⟩
  · obtain ⟨s1, hb, _, hcnt, _⟩ := balance_spec s c hinv (hlen ▸ hc)
    exact ⟨s1, hb, List.perm_iff_count.2 hcnt⟩

/-- C3: in every reachable allocator state, `kalloc` on any core `c` returns,
and it returns 0 (exhaustion) if and only if every core's free list is empty;
so it returns a page whenever some list, the caller's or a sibling's, holds a
page. -/
theorem kalloc_exhausted_iff (L : Layout) (NCPU : Nat) (s : KState) (al sd : List Nat)
    (h : KReach L NCPU s al sd) (c : Nat) (hc : c < NCPU) :
    ∃ s' r, kalloc s c = some (s', r) ∧
      (r = none ↔ ∀ k ∈ s, k.freelist = []) ∧
      ((∃ k ∈ s, k.freelist ≠ []) → ∃ p, r = some p) := by
  obtain ⟨hlen, hinv, _⟩ := kreach_inv L NCPU s al sd h
  obtain ⟨s', r, hk, _, _, hiff, _⟩ := kalloc_spec s c hinv (hlen ▸ hc)
  refine ⟨s', r, hk, hiff, ?_⟩
  rintro ⟨k, hk1, hk2⟩
  cases r with
  | some p => exact ⟨p, rfl⟩
  | none => exact absurd (hiff.1 rfl k hk1) hk2

/-- Witness for C2 on the sample state, core 0 (which has to steal). -/
theorem allocator_conservation_witness :
    KReach demoLayout 2 demoKState [] [0x80022000, 0x80021000] ∧ 0 < 2 ∧
    ((allPages demoKState ++ []).Perm [0x80022000, 0x80021000] ∧
    (∀ pa s', pa ∉ allPages demoKState → kfree demoLayout demoKState 0 pa = some s' →
      (allPages s').Perm (pa :: allPages demoKState)) ∧
    (∃ s' r, kalloc demoKState 0 = some (s', r) ∧
      (r.toList ++ allPages s').Perm (allPages demoKState)) ∧
    (∃ s1, balance demoKState 0 = some s1 ∧ (allPages s1).Perm (allPages demoKState))) :=
  ⟨demoKState_reach, by decide,
    allocator_conservation demoLayout 2 demoKState [] [0x80022000, 0x80021000]
      demoKState_reach 0 (by decide)⟩

/-- Witness for C3 on the sample state, core 0 (own list empty, sibling not). -/
theorem kalloc_exhausted_iff_witness :
    KReach demoLayout 2 demoKState [] [0x80022000, 0x80021000] ∧ 0 < 2 ∧
    ∃ s' r, kalloc demoKState 0 = some (s', r) ∧
      (r = none ↔ ∀ k ∈ demoKState, k.freelist = []) ∧
      ((∃ k ∈ demoKState, k.freelist ≠ []) → ∃ p, r = some p) :=
  ⟨demoKState_reach, by decide,
    kalloc_exhausted_iff demoLayout 2 demoKState [] [0x80022000, 0x80021000]
      demoKState_reach 0 (by decide)⟩

/-! ## Theorems about bio.c -/

/-- The loop of `findLRU`: either no buffer of the chain qualifies and `lru`
is unchanged, or the result is a free buffer of the chain whose timestamp is
at most `time` and at most that of every free buffer of the chain. -/
theorem findLRULoop_spec (s : Bcache) (l : List Nat) (time : Nat) (lru : Option Nat) :
    (findLRULoop s l time lru = lru ∧
        ∀ b ∈ l, ¬ ((s.buf b).refcnt = 0 ∧ (s.buf b).timestamp ≤ time)) ∨
    (∃ b ∈ l, findLRULoop s l time lru = some b ∧ (s.buf b).refcnt = 0 ∧
        (s.buf b).timestamp ≤ time ∧
        ∀ b' ∈ l, (s.buf b').refcnt = 0 → (s.buf b).timestamp ≤ (s.buf b').timestamp) := by
  induction l generalizing time lru with
  | nil => left; simp [findLRULoop]
  | cons b rest ih =>
    by_cases hc : (s.buf b).refcnt = 0 ∧ (s.buf b).timestamp ≤ time
    · right
      rcases ih (s.buf b).timestamp (some b) with ⟨h1, h2⟩ | ⟨b2, hm, h1, h2, h3, h4⟩
      · refine ⟨b, List.mem_cons_self _ _, by simp [findLRULoop, hc, h1], hc.1, hc.2, ?_⟩
        intro b' hb' hr
        rcases List.mem_cons.1 hb' with rfl | hb'
        · exact le_refl _
        · have := h2 b' hb'
          simp only [not_and, not_le] at this
          exact le_of_lt (this hr)
      · refine ⟨b2, List.mem_cons_of_mem _ hm, by simp [findLRULoop, hc, h1], h2,
          le_trans h3 hc.2, ?_⟩
        intro b' hb' hr
        rcases List.mem_cons.1 hb' with rfl | hb'
        · exact h3
        · exact h4 b' hb' hr
    · rcases ih time lru with ⟨h1, h2⟩ | ⟨b2, hm, h1, h2, h3, h4⟩
      · left
        refine ⟨by simp [findLRULoop, hc, h1], ?_⟩
        intro b' hb'
        rcases List.mem_cons.1 hb' with rfl | hb'
        · exact hc
        · exact h2 b' hb'
      · right
        refine ⟨b2, List.mem_cons_of_mem _ hm, by simp [findLRULoop, hc, h1], h2, h3, ?_⟩
        intro b' hb' hr
        rcases List.mem_cons.1 hb' with rfl | hb'
        · simp only [not_and, not_le] at hc
          exact le_trans h3 (le_of_lt (hc hr))
        · exact h4 b' hb' hr

theorem findLRU_some (s : Bcache) (n b : Nat) (h : findLRU s n = some b) :
    b ∈ s.hashtable n ∧ (s.buf b).refcnt = 0 ∧ (s.buf b).timestamp ≤ 0x3FFFFFFF ∧
      ∀ b' ∈ s.hashtable n, (s.buf b').refcnt = 0 →
        (s.buf b).timestamp ≤ (s.buf b').timestamp := by
  unfold findLRU at h
  rcases findLRULoop_spec s (s.hashtable n) 0x3FFFFFFF none with ⟨h1, _⟩ | ⟨b2, hm, h1, h2, h3, h4⟩
  · rw [h1] at h; simp at h
  · rw [h1] at h
    simp only [Option.some.injEq] at h
    subst h
    exact ⟨hm, h2, h3, h4⟩

theorem findLRU_none (s : Bcache) (n : Nat) :
    findLRU s n = none ↔
      ∀ b ∈ s.hashtable n, ¬ ((s.buf b).refcnt = 0 ∧ (s.buf b).timestamp ≤ 0x3FFFFFFF) := by
  unfold findLRU
  rcases findLRULoop_spec s (s.hashtable n) 0x3FFFFFFF none with ⟨h1, h2⟩ | ⟨b2, hm, h1, h2, h3, _⟩
  · simp only [h1, true_iff]; exact h2
  · simp only [h1]
    constructor
    · intro h; simp at h
    · intro h; exact absurd ⟨h2, h3⟩ (h b2 hm)

theorem bgetSteal_some (s s' : Bcache) (dev blockno nblock b : Nat) (l : List Nat)
    (h : bgetSteal s dev blockno nblock l = some (s', b)) :
    ∃ pblock ∈ l, findLRU s pblock = some b ∧
      s' = stealState s dev blockno nblock pblock b := by
  induction l with
  | nil => simp [bgetSteal] at h
  | cons pblock rest ih =>
    unfold bgetSteal at h
    cases hf : findLRU s pblock with
    | none =>
      rw [hf] at h
      obtain ⟨q, hq, h1, h2⟩ := ih h
      exact ⟨q, List.mem_cons_of_mem _ hq, h1, h2⟩
    | some b0 =>
      rw [hf] at h
      have hmem : b0 ∈ s.hashtable pblock := (findLRU_some s pblock b0 hf).1
      simp only [remove, setBuf, hmem, if_true, Option.some.injEq, Prod.mk.injEq] at h
      obtain ⟨h1, rfl⟩ := h
      exact ⟨pblock, List.mem_cons_self _ _, hf, by rw [← h1]; rfl⟩

theorem bgetSteal_none (s : Bcache) (dev blockno nblock : Nat) (l : List Nat) :
    bgetSteal s dev blockno nblock l = none ↔ ∀ pblock ∈ l, findLRU s pblock = none := by
  induction l with
  | nil => simp [bgetSteal]
  | cons pblock rest ih =>
    unfold bgetSteal
    cases hf : findLRU s pblock with
    | none => simp [ih, hf]
    | some b0 =>
      have hmem : b0 ∈ s.hashtable pblock := (findLRU_some s pblock b0 hf).1
      simp [remove, setBuf, hmem, hf]

theorem bget_cases (s s' : Bcache) (dev blockno b : Nat)
    (h : bget s dev blockno = some (s', b)) : BgetCase s dev blockno s' b := by
  unfold bget at h
  unfold BgetCase
  dsimp only at h
  cases hl : bgetLookup s dev blockno with
  | some b0 =>
    rw [hl] at h
    simp only [Option.some.injEq, Prod.mk.injEq] at h
    obtain ⟨h1, rfl⟩ := h
    left
    exact ⟨rfl, h1.symm⟩
  | none =>
    rw [hl] at h
    right
    cases hf : findLRU s (blockno % NTABLE) with
    | some b0 =>
      rw [hf] at h
      simp only [Option.some.injEq, Prod.mk.injEq] at h
      obtain ⟨h1, rfl⟩ := h
      left
      exact ⟨rfl, rfl, h1.symm⟩
    | none =>
      rw [hf] at h
      right
      exact ⟨rfl, rfl, bgetSteal_some s s' dev blockno _ b _ h⟩

theorem bgetLookup_some (s : Bcache) (dev blockno b : Nat)
    (h : bgetLookup s dev blockno = some b) :
    b ∈ s.hashtable (blockno % NTABLE) ∧ (s.buf b).dev = dev ∧ (s.buf b).blockno = blockno := by
  unfold bgetLookup at h
  have h1 := List.mem_of_find?_eq_some h
  have h2 := List.find?_some h
  simp only [decide_eq_true_eq] at h2
  exact ⟨h1, h2.1, h2.2⟩

/-- C4: eviction safety.  When `bget(dev, blockno)` returns buffer `b`, every
buffer whose `refcnt` was greater than 0 before the call has the same `dev`,
`blockno`, `valid`, `data` and `nblock` afterwards and is on the same bucket
lists; and `b` either had the identity `(dev, blockno)` already or had
`refcnt == 0` before the call. -/
theorem bget_eviction_safety (s s' : Bcache) (dev blockno b : Nat)
    (h : bget s dev blockno = some (s', b)) :
    (∀ i, 0 < (s.buf i).refcnt →
        (s'.buf i).dev = (s.buf i).dev ∧ (s'.buf i).blockno = (s.buf i).blockno ∧
        (s'.buf i).valid = (s.buf i).valid ∧ (s'.buf i).data = (s.buf i).data ∧
        (s'.buf i).nblock = (s.buf i).nblock ∧
        ∀ j, i ∈ s'.hashtable j ↔ i ∈ s.hashtable j) ∧
    (((s.buf b).dev = dev ∧ (s.buf b).blockno = blockno) ∨ (s.buf b).refcnt = 0) := by
  rcases bget_cases s s' dev blockno b h with ⟨hl, rfl⟩ | ⟨_, hf, rfl⟩ | ⟨_, _, p, _, hf, rfl⟩
  · obtain ⟨_, h1, h2⟩ := bgetLookup_some s dev blockno b hl
    refine ⟨?_, Or.inl ⟨h1, h2⟩⟩
    intro i _
    by_cases hib : i = b
    · subst hib; simp [setBuf]
    · simp [setBuf, Function.update_noteq hib]
  · obtain ⟨_, h0, _⟩ := findLRU_some s _ b hf
    refine ⟨?_, Or.inr h0⟩
    intro i hi
    have hib : i ≠ b := by rintro rfl; omega
    simp [setBuf, Function.update_noteq hib]
  · obtain ⟨_, h0, _⟩ := findLRU_some s _ b hf
    refine ⟨?_, Or.inr h0⟩
    intro i hi
    have hib : i ≠ b := by rintro rfl; omega
    refine ⟨?_, ?_, ?_, ?_, ?_, ?_⟩ <;> try simp [stealState, Function.update_noteq hib]
    intro j
    simp only [stealState, Function.update_apply]
    by_cases h3 : p = blockno % NTABLE
    · subst h3
      by_cases h1 : j = blockno % NTABLE <;> simp [h1, hib, List.mem_erase_of_ne hib]
    · have h3' : ¬ blockno % NTABLE = p := fun e => h3 e.symm
      by_cases h1 : j = blockno % NTABLE <;> by_cases h2 : j = p <;>
        simp [h1, h2, h3, h3', hib, List.mem_erase_of_ne hib]

/-- Witness for C4: in the sample cache, where buffer 0 is held, `bget(1, 6)`
takes the free buffer 1 from bucket 1. -/
theorem bget_eviction_safety_witness :
    bget demoCache 1 6 = some (stealState demoCache 1 6 6 1 1, 1) ∧
    ((∀ i, 0 < (demoCache.buf i).refcnt →
        ((stealState demoCache 1 6 6 1 1).buf i).dev = (demoCache.buf i).dev ∧
        ((stealState demoCache 1 6 6 1 1).buf i).blockno = (demoCache.buf i).blockno ∧
        ((stealState demoCache 1 6 6 1 1).buf i).valid = (demoCache.buf i).valid ∧
        ((stealState demoCache 1 6 6 1 1).buf i).data = (demoCache.buf i).data ∧
        ((stealState demoCache 1 6 6 1 1).buf i).nblock = (demoCache.buf i).nblock ∧
        ∀ j, i ∈ (stealState demoCache 1 6 6 1 1).hashtable j ↔ i ∈ demoCache.hashtable j) ∧
    (((demoCache.buf 1).dev = 1 ∧ (demoCache.buf 1).blockno = 6) ∨
      (demoCache.buf 1).refcnt = 0)) :=
  ⟨rfl, bget_eviction_safety demoCache (stealState demoCache 1 6 6 1 1) 1 6 1 rfl⟩

theorem find?_eq_some_of_unique {p : Nat → Bool} (l : List Nat) (b : Nat)
    (hb : b ∈ l) (hp : p b = true) (hu : ∀ x ∈ l, p x = true → x = b) :
    l.find? p = some b := by
  induction l with
  | nil => simp at hb
  | cons a rest ih =>
    by_cases ha : p a = true
    · have := hu a (List.mem_cons_self _ _) ha
      subst this
      simp [List.find?, ha]
    · have hab : b ≠ a := by rintro rfl; exact ha hp
      have hb' : b ∈ rest := by
        rcases List.mem_cons.1 hb with h | h
        · exact absurd h hab
        · exact h
      have ha' : p a = false := by simpa using ha
      simp only [List.find?, ha']
      exact ih hb' (fun x hx => hu x (List.mem_cons_of_mem _ hx))

/-- The lookup of `bget` depends only on the bucket lists and on the fields
`dev` and `blockno`. -/
theorem bgetLookup_congr (s t : Bcache) (dev blockno : Nat)
    (hh : t.hashtable = s.hashtable)
    (hb : ∀ i, (t.buf i).dev = (s.buf i).dev ∧ (t.buf i).blockno = (s.buf i).blockno) :
    bgetLookup t dev blockno = bgetLookup s dev blockno := by
  unfold bgetLookup
  rw [hh]
  congr 1
  funext i
  rw [(hb i).1, (hb i).2]

/-- After `bget(dev, blockno)` has returned `b`, the lookup of `(dev, blockno)`
finds `b`. -/
theorem bgetLookup_after_bget (s s' : Bcache) (dev blockno b : Nat)
    (h : bget s dev blockno = some (s', b)) : bgetLookup s' dev blockno = some b := by
  rcases bget_cases s s' dev blockno b h with ⟨hl, rfl⟩ | ⟨hl, hf, rfl⟩ | ⟨_, _, p, _, hf, rfl⟩
  · rw [← hl]
    apply bgetLookup_congr
    · rfl
    · intro i
      by_cases hib : i = b
      · subst hib; simp [setBuf]
      · simp [setBuf, Function.update_noteq hib]
  · obtain ⟨hmem, _⟩ := findLRU_some s _ b hf
    unfold bgetLookup at hl ⊢
    rw [List.find?_eq_none] at hl
    apply find?_eq_some_of_unique _ _ hmem
    · simp [setBuf]
    · intro x hx hpx
      by_contra hxb
      have := hl x hx
      simp [setBuf, Function.update_noteq hxb] at hpx
      simp at this
      exact this hpx.1 hpx.2
  · unfold bgetLookup
    simp [stealState, List.find?]

/-- What `bread` leaves behind: the lookup finds the returned buffer, and that
buffer is valid. -/
theorem bread_post (disk : Nat → Nat → List Nat) (s s1 : Bcache) (dev blockno b : Nat)
    (r1 : Bool) (h : bread disk s dev blockno = some (s1, b, r1)) :
    bgetLookup s1 dev blockno = some b ∧ (s1.buf b).valid = true := by
  unfold bread at h
  cases hg : bget s dev blockno with
  | none => rw [hg] at h; simp at h
  | some res =>
    obtain ⟨s0, b0⟩ := res
    rw [hg] at h
    have hlook := bgetLookup_after_bget s s0 dev blockno b0 hg
    simp only at h
    split at h
    · simp only [Option.some.injEq, Prod.mk.injEq] at h
      obtain ⟨rfl, rfl, _⟩ := h
      refine ⟨?_, by simp [setBuf]⟩
      rw [← hlook]
      apply bgetLookup_congr
      · rfl
      · intro i
        by_cases hib : i = b0
        · subst hib; simp [setBuf]
        · simp [setBuf, Function.update_noteq hib]
    · rename_i hv
      simp only [Option.some.injEq, Prod.mk.injEq] at h
      obtain ⟨rfl, rfl, _⟩ := h
      exact ⟨hlook, by simpa using hv⟩

/-- C5: after `bread(dev, blockno)` has returned buffer `b`, the holder has
set `b->data` to any `d` and has called `brelse(b)`, the next
`bread(dev, blockno)` returns the same buffer `b`, with `valid == 1` and the
data `d`, and does not read the device.  This holds from every cache state. -/
theorem bread_after_brelse (disk : Nat → Nat → List Nat) (s s1 : Bcache)
    (dev blockno b : Nat) (r1 : Bool) (d : List Nat) (ticks : Nat)
    (h : bread disk s dev blockno = some (s1, b, r1)) :
    ∃ s2, bread disk (brelse (setData s1 b d) b ticks) dev blockno = some (s2, b, false) ∧
      (s2.buf b).valid = true ∧ (s2.buf b).data = d := by
  obtain ⟨hlook, hvalid⟩ := bread_post disk s s1 dev blockno b r1 h
  have hl3 : bgetLookup (brelse (setData s1 b d) b ticks) dev blockno = some b := by
    rw [← hlook]
    apply bgetLookup_congr
    · rfl
    · intro i
      by_cases hib : i = b
      · subst hib; simp [brelse, setData, setBuf]
      · simp [brelse, setData, setBuf, Function.update_noteq hib]
  have hv3 : ((brelse (setData s1 b d) b ticks).buf b).valid = true := by
    simp [brelse, setData, setBuf, hvalid]
  have hd3 : ((brelse (setData s1 b d) b ticks).buf b).data = d := by
    simp [brelse, setData, setBuf]
  generalize brelse (setData s1 b d) b ticks = s3 at hl3 hv3 hd3
  refine ⟨setBuf s3 b { s3.buf b with refcnt := uintInc (s3.buf b).refcnt }, ?_, ?_, ?_⟩
  · unfold bread bget
    simp only [hl3]
    simp [setBuf, hv3]
  · simp [setBuf, hv3]
  · simp [setBuf, hd3]

/-- Witness for C5: from the state after `binit`, `bread(1, 5)` returns
buffer 0 after a device read. -/
theorem bread_after_brelse_witness :
    bread (fun _ _ => [7, 7, 7, 7]) (binit 3 4) 1 5
      = some (setBuf demoCache 0 { demoCache.buf 0 with data := [7, 7, 7, 7], valid := true },
          0, true) ∧
    ∃ s2, bread (fun _ _ => [7, 7, 7, 7])
        (brelse (setData
          (setBuf demoCache 0 { demoCache.buf 0 with data := [7, 7, 7, 7], valid := true })
          0 [1, 2, 3, 4]) 0 99) 1 5 = some (s2, 0, false) ∧
      (s2.buf 0).valid = true ∧ (s2.buf 0).data = [1, 2, 3, 4] :=
  ⟨rfl, bread_after_brelse (fun _ _ => [7, 7, 7, 7]) (binit 3 4) _ 1 5 0 true [1, 2, 3, 4] 99 rfl⟩

theorem stealOrder_lt (n j : Nat) (h : j ∈ stealOrder n) : j < NTABLE := by
  unfold stealOrder at h
  obtain ⟨k, _, rfl⟩ := List.mem_map.1 h
  exact Nat.mod_lt _ (by decide)

theorem stealOrder_complete : ∀ n < NTABLE, ∀ j < NTABLE, j ≠ n → j ∈ stealOrder n := by
  decide

/-- When the block is not in its home bucket, `bget` panics exactly when no
bucket holds a buffer with `refcnt == 0` and a timestamp of at most
0x3FFFFFFF, the initial value of `time` in `findLRU`. -/
theorem bget_panic_iff (s : Bcache) (dev blockno : Nat)
    (hmiss : bgetLookup s dev blockno = none) :
    bget s dev blockno = none ↔
      ∀ j < NTABLE, ∀ b ∈ s.hashtable j,
        ¬ ((s.buf b).refcnt = 0 ∧ (s.buf b).timestamp ≤ 0x3FFFFFFF) := by
  have hn : blockno % NTABLE < NTABLE := Nat.mod_lt _ (by decide)
  unfold bget
  simp only [hmiss]
  constructor
  · intro h j hj
    rw [← findLRU_none]
    cases hf : findLRU s (blockno % NTABLE) with
    | some b0 => rw [hf] at h; simp at h
    | none =>
      rw [hf] at h
      simp only at h
      by_cases hjn : j = blockno % NTABLE
      · rw [hjn]; exact hf
      · exact (bgetSteal_none s dev blockno _ _).1 h j (stealOrder_complete _ hn j hj hjn)
  · intro h
    have hf : findLRU s (blockno % NTABLE) = none := (findLRU_none s _).2 (h _ hn)
    rw [hf]
    simp only
    rw [bgetSteal_none]
    intro p hp
    exact (findLRU_none s p).2 (h p (stealOrder_lt _ p hp))

/-- C6 (evaluation at the failing input): in a pool of 30 buffers where every
buffer is held, buffer 26 is released at tick 0x40000000.  It then has
`refcnt == 0` and lies in bucket 0, block (1, 100) is not cached, and yet
`bget(1, 100)` panics; had the release been at tick 0x3FFFFFFF, `bget` would
return buffer 26. -/
theorem bget_panics_with_free_buffer :
    (pinBlocks (binit 30 1024) (List.range 30)).isSome = true ∧
    ((brelse fullyPinned 26 0x40000000).buf 26).refcnt = 0 ∧
    26 ∈ (brelse fullyPinned 26 0x40000000).hashtable 0 ∧
    bgetLookup (brelse fullyPinned 26 0x40000000) 1 100 = none ∧
    bget (brelse fullyPinned 26 0x40000000) 1 100 = none ∧
    (bget (brelse fullyPinned 26 0x3FFFFFFF) 1 100).map Prod.snd = some 26 :=
  ⟨by decide, by decide, by decide, by decide, rfl, by decide⟩

/-- C7: LRU choice.  Whenever `findLRU` returns a buffer of a bucket, that
buffer has `refcnt == 0` and its timestamp is at most that of every buffer of
the bucket with `refcnt == 0`; and a buffer `b` that `bget` recycles on a miss
is the one `findLRU` returned for one of the `NTABLE` buckets, so it has
`refcnt == 0` and a minimal timestamp among the free buffers of that bucket. -/
theorem bget_recycles_lru (s s' : Bcache) (dev blockno b : Nat)
    (h : bget s dev blockno = some (s', b)) (hmiss : bgetLookup s dev blockno = none) :
    (∀ j c, findLRU s j = some c →
        c ∈ s.hashtable j ∧ (s.buf c).refcnt = 0 ∧
        ∀ c' ∈ s.hashtable j, (s.buf c').refcnt = 0 →
          (s.buf c).timestamp ≤ (s.buf c').timestamp) ∧
    (∃ j, j < NTABLE ∧ findLRU s j = some b ∧ b ∈ s.hashtable j ∧ (s.buf b).refcnt = 0 ∧
        ∀ c' ∈ s.hashtable j, (s.buf c').refcnt = 0 →
          (s.buf b).timestamp ≤ (s.buf c').timestamp) := by
  have hall : ∀ j c, findLRU s j = some c →
      c ∈ s.hashtable j ∧ (s.buf c).refcnt = 0 ∧
      ∀ c' ∈ s.hashtable j, (s.buf c').refcnt = 0 →
        (s.buf c).timestamp ≤ (s.buf c').timestamp := by
    intro j c hf
    obtain ⟨h1, h2, _, h4⟩ := findLRU_some s j c hf
    exact ⟨h1, h2, h4⟩
  refine ⟨hall, ?_⟩
  rcases bget_cases s s' dev blockno b h with ⟨hl, _⟩ | ⟨_, hf, _⟩ | ⟨_, _, p, hp, hf, _⟩
  · rw [hmiss] at hl; simp at hl
  · exact ⟨_, Nat.mod_lt _ (by decide), hf, hall _ _ hf⟩
  · exact ⟨p, stealOrder_lt _ p hp, hf, hall _ _ hf⟩

/-- Witness for C7: in the sample cache `bget(1, 6)` misses and recycles
buffer 1, the least recently used free buffer of bucket 1. -/
theorem bget_recycles_lru_witness :
    bget demoCache 1 6 = some (stealState demoCache 1 6 6 1 1, 1) ∧
    bgetLookup demoCache 1 6 = none ∧
    ((∀ j c, findLRU demoCache j = some c →
        c ∈ demoCache.hashtable j ∧ (demoCache.buf c).refcnt = 0 ∧
        ∀ c' ∈ demoCache.hashtable j, (demoCache.buf c').refcnt = 0 →
          (demoCache.buf c).timestamp ≤ (demoCache.buf c').timestamp) ∧
    (∃ j, j < NTABLE ∧ findLRU demoCache j = some 1 ∧ 1 ∈ demoCache.hashtable j ∧
        (demoCache.buf 1).refcnt = 0 ∧
        ∀ c' ∈ demoCache.hashtable j, (demoCache.buf c').refcnt = 0 →
          (demoCache.buf 1).timestamp ≤ (demoCache.buf c').timestamp)) :=
  ⟨rfl, by decide,
    bget_recycles_lru demoCache (stealState demoCache 1 6 6 1 1) 1 6 1 rfl (by decide)⟩

/-! ## Theorems about vma.c -/

theorem kfree_valid (L : Layout) (s s' : KState) (id pa : Nat)
    (h : kfree L s id pa = some s') : pa % PGSIZE = 0 ∧ L.kend ≤ pa ∧ pa < L.PHYSTOP := by
  unfold kfree at h
  split at h
  · simp at h
  · rename_i hc
    simp only [not_or, not_not, not_lt, ge_iff_le, not_le] at hc
    exact hc

/-- Every page on a free list of a reachable allocator state is page-aligned
and lies between the end of the kernel and `PHYSTOP`. -/
theorem kreach_aligned (L : Layout) (NCPU : Nat) (s : KState) (al sd : List Nat)
    (h : KReach L NCPU s al sd) :
    ∀ p ∈ allPages s, p % PGSIZE = 0 ∧ L.kend ≤ p ∧ p < L.PHYSTOP := by
  induction h with
  | boot => simp [allPages_kboot]
  | seed id pa hr _ _ _ hf ih =>
    intro p hp
    obtain ⟨_, hinv, _⟩ := kreach_inv L NCPU _ _ _ hr
    rcases List.mem_cons.1 ((List.perm_iff_count.2
      (kfree_spec L _ _ id pa hinv hf).2.2.2).subset hp) with rfl | h'
    · exact kfree_valid L _ _ id p hf
    · exact ih p h'
  | free id pa hr _ _ _ hf ih =>
    intro p hp
    obtain ⟨_, hinv, _⟩ := kreach_inv L NCPU _ _ _ hr
    rcases List.mem_cons.1 ((List.perm_iff_count.2
      (kfree_spec L _ _ id pa hinv hf).2.2.2).subset hp) with rfl | h'
    · exact kfree_valid L _ _ id p hf
    · exact ih p h'
  | alloc id r hr hid hk ih =>
    intro p hp
    obtain ⟨hlen, hinv, _⟩ := kreach_inv L NCPU _ _ _ hr
    obtain ⟨s2, r2, hk2, _, _, _, hc⟩ := kalloc_spec _ id hinv (hlen ▸ hid)
    rw [hk] at hk2
    simp only [Option.some.injEq, Prod.mk.injEq] at hk2
    obtain ⟨rfl, rfl⟩ := hk2
    exact ih p ((List.perm_iff_count.2 hc).subset (List.mem_append_right _ hp))
  | exhausted id hr hid hk ih =>
    intro p hp
    obtain ⟨hlen, hinv, _⟩ := kreach_inv L NCPU _ _ _ hr
    obtain ⟨s2, r2, hk2, _, _, _, hc⟩ := kalloc_spec _ id hinv (hlen ▸ hid)
    rw [hk] at hk2
    simp only [Option.some.injEq, Prod.mk.injEq] at hk2
    obtain ⟨rfl, rfl⟩ := hk2
    exact ih p ((List.perm_iff_count.2 hc).subset (List.mem_append_right _ hp))

/-- The entry `PA2PTE(mem) | prot` for a page-aligned `mem` and flag bits
`prot`: it points at `mem` and carries exactly the bits of `prot`. -/
theorem pte_of_page (mem prot : Nat) (hm : mem % PGSIZE = 0) (hp : prot < 2 ^ 10) :
    PTE2PA (PA2PTE mem ||| prot) = mem ∧ (PA2PTE mem ||| prot) % 2 ^ 10 = prot ∧
      (PA2PTE mem ||| prot) &&& PTE_V = prot &&& PTE_V := by
  have e : PA2PTE mem ||| prot = 2 ^ 10 * (mem / 4096) + prot := by
    rw [Nat.mul_add_lt_is_or hp]
    simp [PA2PTE, Nat.shiftLeft_eq, Nat.shiftRight_eq_div_pow, Nat.mul_comm]
  rw [e]
  unfold PGSIZE at hm
  refine ⟨?_, ?_, ?_⟩
  · simp only [PTE2PA, Nat.shiftLeft_eq, Nat.shiftRight_eq_div_pow]
    norm_num at hp ⊢
    omega
  · norm_num at hp ⊢
    omega
  · simp only [PTE_V, Nat.and_one_is_mod]
    norm_num
    omega

theorem PGROUNDDOWN_div (va : Nat) : PGROUNDDOWN va / PGSIZE = va / PGSIZE := by
  unfold PGROUNDDOWN
  exact Nat.mul_div_cancel _ (by decide)

theorem walk_alloc (pt : Nat → Option Nat) (va : Nat) :
    ∃ pt1, walk pt va true = (pt1, some (va / PGSIZE)) ∧
      pt1 (va / PGSIZE) = some ((pt (va / PGSIZE)).getD 0) := by
  unfold walk
  cases h : pt (va / PGSIZE) with
  | some x => exact ⟨pt, rfl, by simp [h]⟩
  | none => exact ⟨_, rfl, by simp⟩

/-- C8 (amended): let the allocator be in a reachable state and `readi`
return at most the bytes asked for; let `vget(va)` find the VMA `vma`, let the
page of `va` be unbacked, and let `vma.prot` contain `PTE_V` and no bit beyond
the ten flag bits.  After a successful `vfault(va)` the entry of the page of `va` is
`PA2PTE(mem) | vma.prot` for the page `mem` that `kalloc` has just taken from
the free lists: it has `PTE_V` set, points at `mem` and carries the bits of
`vma.prot`.  The first `n` bytes of the page are the `n` bytes that `readi`
read at offset `vma.offset + (PGROUNDDOWN(va) - vma.addr)`, and the other
`PGSIZE - n` bytes are zero. -/
theorem vfault_backs_page (L : Layout) (NCPU : Nat) (al sd : List Nat)
    (readi : Nat → Int → Nat → Option (List Nat)) (cpu : Nat) (s s' : VState) (va i : Nat)
    (vma : VMA)
    (hreadi : ∀ ip off n bytes, readi ip off n = some bytes → bytes.length ≤ n)
    (hk : KReach L NCPU s.kmem al sd) (hcpu : cpu < NCPU)
    (hget : vget s va = some (i, vma))
    (hun : ∀ pte, s.pagetable (va / PGSIZE) = some pte → pte &&& PTE_V = 0)
    (hprot : vma.prot &&& PTE_V ≠ 0) (hbits : vma.prot < 2 ^ 10)
    (hres : vfault readi cpu s va = some (s', 0)) :
    ∃ mem bytes,
      kalloc s.kmem cpu = some (s'.kmem, some mem) ∧ mem ∈ allPages s.kmem ∧
      readi (s.file vma.f).ip (vma.offset + ((PGROUNDDOWN va : Int) - vma.addr)) PGSIZE
        = some bytes ∧
      s'.pagetable (va / PGSIZE) = some (PA2PTE mem ||| vma.prot) ∧
      (PA2PTE mem ||| vma.prot) &&& PTE_V ≠ 0 ∧
      PTE2PA (PA2PTE mem ||| vma.prot) = mem ∧
      (PA2PTE mem ||| vma.prot) % 2 ^ 10 = vma.prot ∧
      (s'.mem mem).length = PGSIZE ∧
      (s'.mem mem).take bytes.length = bytes ∧
      (s'.mem mem).drop bytes.length = List.replicate (PGSIZE - bytes.length) 0 := by
  obtain ⟨hlen, hinv, _⟩ := kreach_inv L NCPU _ _ _ hk
  obtain ⟨pt1, hw, hpt⟩ := walk_alloc s.pagetable (PGROUNDDOWN va)
  rw [PGROUNDDOWN_div] at hw hpt
  have hpte : (pt1 (va / PGSIZE)).getD 0 &&& PTE_V = 0 := by
    rw [hpt]
    cases h0 : s.pagetable (va / PGSIZE) with
    | none => simp
    | some x => simpa using hun x h0
  obtain ⟨km, r, hka, _, _, _, hcnt⟩ := kalloc_spec s.kmem cpu hinv (hlen ▸ hcpu)
  unfold vfault at hres
  rw [hget] at hres
  simp only [hw, hka] at hres
  by_cases hlt : PGROUNDDOWN va < vma.addr
  · simp [hlt] at hres
  · simp only [hlt, if_false, hpte, if_true] at hres
    cases r with
    | none => simp at hres
    | some mem =>
      simp only at hres
      have hmem : mem ∈ allPages s.kmem :=
        (List.perm_iff_count.2 hcnt).subset (by simp)
      have halign := (kreach_aligned L NCPU _ _ _ hk mem hmem).1
      obtain ⟨b1, b2, b3⟩ := pte_of_page mem vma.prot halign hbits
      cases hr : readi (s.file vma.f).ip (vma.offset + ((PGROUNDDOWN va : Int) - vma.addr))
          PGSIZE with
      | none => rw [hr] at hres; simp at hres
      | some bytes =>
        rw [hr] at hres
        simp only [Option.some.injEq, Prod.mk.injEq, and_true] at hres
        subst hres
        have hb := hreadi _ _ _ _ hr
        refine ⟨mem, bytes, hka, hmem, rfl, by simp, by rw [b3]; exact hprot, b1, b2, ?_, ?_, ?_⟩
        · simp; omega
        · simp
        · simp

/-- C8 (counterexample): a VMA with `prot == 0` is installed by `vinstall`;
the page at 0x4000 lies inside it and is unbacked; `vfault(0x4000)` succeeds
(returns 0), and afterwards the entry of the page is `PA2PTE(mem) | 0`, in
which `PTE_V` is not set. -/
theorem vfault_entry_not_valid :
    (vinstall demoProc demoNoProt).map Prod.snd = some 0 ∧
    vget demoNoProtMapped 0x4000 = some (0, ⟨0x4000, 4096, 0, 0, 0, 3⟩) ∧
    demoNoProtMapped.pagetable (0x4000 / PGSIZE) = some 0 ∧
    (vfault demoReadi 0 demoNoProtMapped 0x4000).map
        (fun r => (r.2, r.1.pagetable (0x4000 / PGSIZE)))
      = some (0, some (PA2PTE 0x80022000)) ∧
    PA2PTE 0x80022000 &&& PTE_V = 0 := by
  decide

theorem demoReadi_length (ip : Nat) (off : Int) (n : Nat) (bytes : List Nat)
    (h : demoReadi ip off n = some bytes) : bytes.length ≤ n := by
  unfold demoReadi at h
  simp only [Option.some.injEq] at h
  rw [← h, List.length_take]
  exact Nat.min_le_left _ _

/-- Witness for C8: the page fault at 0x4000 of the sample process. -/
theorem vfault_backs_page_witness :
    vget demoMapped 0x4000 = some (0, demoInstalled) ∧
    vfault demoReadi 0 demoMapped 0x4000 = some (demoFaulted, 0) ∧
    ∃ mem bytes,
      kalloc demoMapped.kmem 0 = some (demoFaulted.kmem, some mem) ∧
      mem ∈ allPages demoMapped.kmem ∧
      demoReadi (demoMapped.file demoInstalled.f).ip
          (demoInstalled.offset + ((PGROUNDDOWN 0x4000 : Int) - demoInstalled.addr)) PGSIZE
        = some bytes ∧
      demoFaulted.pagetable (0x4000 / PGSIZE) = some (PA2PTE mem ||| demoInstalled.prot) ∧
      (PA2PTE mem ||| demoInstalled.prot) &&& PTE_V ≠ 0 ∧
      PTE2PA (PA2PTE mem ||| demoInstalled.prot) = mem ∧
      (PA2PTE mem ||| demoInstalled.prot) % 2 ^ 10 = demoInstalled.prot ∧
      (demoFaulted.mem mem).length = PGSIZE ∧
      (demoFaulted.mem mem).take bytes.length = bytes ∧
      (demoFaulted.mem mem).drop bytes.length = List.replicate (PGSIZE - bytes.length) 0 :=
  ⟨by decide, rfl,
    vfault_backs_page demoLayout 2 [] [0x80022000, 0x80021000] demoReadi 0 demoMapped
      demoFaulted 0x4000 0 demoInstalled demoReadi_length demoKState_reach (by decide)
      (by decide) (fun pte h => by
        have h4 : demoMapped.pagetable (0x4000 / PGSIZE) = some 0 := by decide
        rw [h4] at h
        simp only [Option.some.injEq] at h
        rw [← h]
        decide)
      (by decide) (by decide) rfl⟩

theorem vunmap_frame (s : VState) (vma : VMA) :
    (vunmap s vma).1.pagetable = s.pagetable ∧ (vunmap s vma).1.mem = s.mem ∧
      (vunmap s vma).1.kmem = s.kmem := by
  unfold vunmap
  split_ifs <;> simp

/-- C10 (amended): `vuninstall(addr, length)` leaves every page-table entry
as it was, and frees no page: `vunmap` only writes pages back.  So a page of
the removed range that was faulted in before the call is still mapped, to the
same physical page, after it. -/
theorem vuninstall_keeps_pagetable (s : VState) (addr : Nat) (length : Int) :
    (vuninstall s addr length).1.pagetable = s.pagetable ∧
    (vuninstall s addr length).1.mem = s.mem ∧
    (vuninstall s addr length).1.kmem = s.kmem := by
  unfold vuninstall
  cases hg : vget s addr with
  | none => simp
  | some r =>
    obtain ⟨i, vma⟩ := r
    simp only
    have hfr := vunmap_frame { s with vma := s.vma.set i (remainingVMA vma addr length) }
      (removedVMA vma addr length)
    split_ifs <;> simp [hfr]

/-- C10 (counterexample): the sample process maps one page at 0x4000
(`vinstall` returns 0) and faults it in (`vfault` returns 0); then
`vuninstall(0x4000, 4096)` returns 0, and the entry of the page is the same
valid entry as before the call. -/
theorem vuninstall_leaves_page_mapped :
    (vinstall demoProc demoVMA).map Prod.snd = some 0 ∧
    (vfault demoReadi 0 demoMapped 0x4000).map Prod.snd = some 0 ∧
    demoFaulted.pagetable (0x4000 / PGSIZE) = some (PA2PTE 0x80022000 ||| 23) ∧
    (vuninstall demoFaulted 0x4000 4096).2 = 0 ∧
    (vuninstall demoFaulted 0x4000 4096).1.pagetable (0x4000 / PGSIZE)
      = some (PA2PTE 0x80022000 ||| 23) ∧
    (PA2PTE 0x80022000 ||| 23) &&& PTE_V ≠ 0 := by
  decide

/-- C11 (counterexample): a request of length zero makes `vinstall` return 0,
which is not a negative value. -/
theorem vinstall_zero_length_returns_zero :
    (vinstall demoProc demoZeroLen).map Prod.snd = some 0 ∧ ¬ ((0 : Int) < 0) := by
  decide

/-- C11 (amended): for every request whose length is zero, or whose file is
not readable, or which is shared with `PTE_W` on a file that is not writable,
`vinstall` leaves the state as it was, so it stores no VMA and takes no file
reference; it returns 0 when the length is zero and -1 otherwise. -/
theorem vinstall_rejects (s : VState) (vma : VMA)
    (h : vma.length = 0 ∨ (s.file vma.f).readable = false ∨
      ((s.file vma.f).writable = false ∧ vma.flags ≠ 0 ∧ vma.prot &&& PTE_W ≠ 0)) :
    vinstall s vma = some (s, if vma.length = 0 then 0 else -1) := by
  unfold vinstall
  by_cases h0 : vma.length = 0
  · simp [h0]
  · simp only [h0, if_false]
    rcases h with h | h | h
    · exact absurd h h0
    · by_cases hi : (s.file vma.f).isInode = false
      · simp [hi]
      · simp [hi, h]
    · by_cases hi : (s.file vma.f).isInode = false
      · simp [hi]
      · by_cases hr : (s.file vma.f).readable = false
        · simp [hi, hr]
        · simp [hi, hr, h]

/-- Witness for C11: a shared writable mapping of a file that is not writable. -/
theorem vinstall_rejects_witness :
    ((demoReadOnlyProc.file demoVMA.f).writable = false ∧ demoVMA.flags ≠ 0 ∧
      demoVMA.prot &&& PTE_W ≠ 0) ∧
    vinstall demoReadOnlyProc demoVMA
      = some (demoReadOnlyProc, if demoVMA.length = 0 then 0 else -1) :=
  ⟨by decide, vinstall_rejects demoReadOnlyProc demoVMA (Or.inr (Or.inr (by decide)))⟩

/-- C12 (evaluation at the failing input): `vmap` computes
`end = PGROUNDUP(addr + length - 1)`, which is the start of the last page when
the last byte of the range is the first byte of a page.  For `addr = 0x4000`
and `length = 1` no slot is reserved for the page at 0x4000; for
`length = 4097` the page at 0x5000, which holds the last byte, gets no slot;
and a valid entry that was in the slot before (here page 4 of the sample
process after its page fault) stays valid.  Through `vinstall` of one byte
the same happens: the call returns 0 and stores the VMA at 0x4000, and the
page at 0x4000 has no slot. -/
theorem vmap_misses_last_page :
    (vmap (fun _ => none) ⟨0x4000, 1, 0, 0, 0, 0⟩).map (fun pt => pt (0x4000 / PGSIZE))
      = some none ∧
    (vmap (fun _ => none) ⟨0x4000, 4097, 0, 0, 0, 0⟩).map
        (fun pt => (pt (0x4000 / PGSIZE), pt (0x5000 / PGSIZE)))
      = some (some 0, none) ∧
    (vmap demoFaulted.pagetable ⟨0x4000, 1, 0, 0, 0, 0⟩).map (fun pt => pt (0x4000 / PGSIZE))
      = some (some (PA2PTE 0x80022000 ||| 23)) ∧
    (PA2PTE 0x80022000 ||| 23) &&& PTE_V ≠ 0 ∧
    (vinstall demoProc ⟨0, 1, PROT_READ, 0, 0, 3⟩).map
        (fun r => (r.2, r.1.vma[0]?, r.1.pagetable (0x4000 / PGSIZE)))
      = some (0, some ⟨0x4000, 1, PROT_READ, 0, 0, 3⟩, none) := by
  decide

theorem freeSlotFrom_spec (l : List VMA) (k i : Nat) (h : freeSlotFrom l k = some i) :
    k ≤ i ∧ i - k < l.length ∧ (∀ v, l[i - k]? = some v → v.length = 0) := by
  induction l generalizing k with
  | nil => simp [freeSlotFrom] at h
  | cons v rest ih =>
    unfold freeSlotFrom at h
    by_cases hv : v.length = 0
    · simp only [hv, if_true, Option.some.injEq] at h
      subst h
      simp [hv]
    · simp only [hv, if_false] at h
      obtain ⟨h1, h2, h3⟩ := ih (k + 1) h
      have e : i - k = (i - (k + 1)) + 1 := by omega
      refine ⟨by omega, by simp only [List.length_cons]; omega, ?_⟩
      intro w hw
      rw [e, List.getElem?_cons_succ] at hw
      exact h3 w hw

theorem PGROUNDUP_bounds (sz : Nat) :
    PGROUNDUP sz % PGSIZE = 0 ∧ sz ≤ PGROUNDUP sz ∧ PGROUNDUP sz < sz + PGSIZE := by
  unfold PGROUNDUP PGSIZE
  omega

theorem toU64_of_range (x : Int) (h0 : 0 ≤ x) (h1 : x < 2 ^ 64) : (toU64 x : Int) = x := by
  unfold toU64
  have e : x % ((2 ^ 64 : Nat) : Int) = x := Int.emod_eq_of_lt h0 (by norm_num; exact h1)
  rw [e, Int.toNat_of_nonneg h0]

/-- C13 (counterexample): `vinstall` of a request with `addr == 0` and
`length == -16385` on the sample process (size 0x4000) returns 0 and leaves the
process with size 2^64 - 1.  A second `vinstall`, of the sample request
(`addr == 0`, `length == 4096`), returns 0 as well; `PGROUNDUP(p->sz)` wraps,
so the VMA is stored in slot 1 with `addr == 0`, which is below the old size
2^64 - 1 and is not that size rounded up, and the size becomes 4096. -/
theorem vinstall_wraps_at_top :
    (vinstall demoProc demoNegative).map (fun r => (r.2, r.1.sz)) = some (0, 2 ^ 64 - 1) ∧
    demoTop.sz = 2 ^ 64 - 1 ∧
    freeSlotFrom demoTop.vma 0 = some 1 ∧
    (vinstall demoTop demoVMA).map (fun r => (r.2, r.1.vma[1]?, r.1.sz))
      = some (0, some { demoVMA with addr := 0 }, 4096) ∧
    PGROUNDUP demoTop.sz = 2 ^ 64 ∧
    ¬ (demoTop.sz ≤ 0) := by
  decide

/-- C13 (amended): when `vinstall` succeeds for a request with `addr == 0`
and `length > 0` on a process of size `sz`, and `sz` rounded up to a page
boundary plus `length` is below 2^64 (the `uint64` arithmetic does not wrap),
the VMA is stored in the first free slot with `addr` equal to `sz` rounded up
to a page boundary, which is page-aligned and not below `sz` (so the mapped
range lies at or above the old size), and the process size becomes
`addr + length`. -/
theorem vinstall_addr_zero (s s' : VState) (vma : VMA)
    (h : vinstall s vma = some (s', 0)) (ha : vma.addr = 0) (hl : 0 < vma.length)
    (hr : (PGROUNDUP s.sz : Int) + vma.length < 2 ^ 64) :
    ∃ i, freeSlotFrom s.vma 0 = some i ∧ i < s.vma.length ∧
      s'.vma[i]? = some { vma with addr := PGROUNDUP s.sz } ∧
      PGROUNDUP s.sz % PGSIZE = 0 ∧ s.sz ≤ PGROUNDUP s.sz ∧
      (s'.sz : Int) = (PGROUNDUP s.sz : Int) + vma.length ∧
      (∀ va : Nat, PGROUNDUP s.sz ≤ va → s.sz ≤ va) := by
  obtain ⟨b1, b2, _⟩ := PGROUNDUP_bounds s.sz
  have h0 : vma.length ≠ 0 := by omega
  have hlt : PGROUNDUP s.sz < 2 ^ 64 := by
    have : (PGROUNDUP s.sz : Int) < 2 ^ 64 := by omega
    exact_mod_cast this
  have hmod : PGROUNDUP s.sz % 2 ^ 64 = PGROUNDUP s.sz := Nat.mod_eq_of_lt hlt
  unfold vinstall at h
  simp only [h0, if_false, ha, if_true, hmod] at h
  split_ifs at h
  · simp at h
  · simp at h
  · simp at h
  · cases hm : vmap s.pagetable { vma with addr := PGROUNDUP s.sz } with
    | none => simp [ha, hm] at h
    | some pt1 =>
      simp only [ha, hm] at h
      cases hf : freeSlotFrom s.vma 0 with
      | none => simp [hf] at h
      | some i =>
        simp only [hf, Option.some.injEq, Prod.mk.injEq, and_true] at h
        obtain ⟨_, hi, _⟩ := freeSlotFrom_spec s.vma 0 i hf
        have hi' : i < s.vma.length := by simpa using hi
        refine ⟨i, rfl, hi', ?_, b1, b2, ?_, fun va hva => le_trans b2 hva⟩
        · rw [← h]
          simp [hi']
        · rw [← h]
          simp only
          exact toU64_of_range _ (by omega) hr

/-- Witness for C13 (amended): the sample request on the sample process. -/
theorem vinstall_addr_zero_witness :
    vinstall demoProc demoVMA = some (demoMapped, 0) ∧
    (PGROUNDUP demoProc.sz : Int) + demoVMA.length < 2 ^ 64 ∧
    ∃ i, freeSlotFrom demoProc.vma 0 = some i ∧ i < demoProc.vma.length ∧
      demoMapped.vma[i]? = some { demoVMA with addr := PGROUNDUP demoProc.sz } ∧
      PGROUNDUP demoProc.sz % PGSIZE = 0 ∧ demoProc.sz ≤ PGROUNDUP demoProc.sz ∧
      (demoMapped.sz : Int) = (PGROUNDUP demoProc.sz : Int) + demoVMA.length ∧
      (∀ va : Nat, PGROUNDUP demoProc.sz ≤ va → demoProc.sz ≤ va) :=
  ⟨rfl, by decide,
    vinstall_addr_zero demoProc demoMapped demoVMA rfl (by decide) (by decide) (by decide)⟩

/-- The range condition on the offset is needed: a VMA of two pages installed
with offset 2^31 - 4096 is stored as `(0x4000, 8192, 2^31 - 4096)`; the prefix
removal `vuninstall(0x4000, 4096)` returns 0 and leaves the offset -2^31 in
the slot, since 2^31 does not fit the `int` field. -/
theorem vuninstall_offset_wraps :
    vget demoHighOffsetMapped 0x4000
      = some (0, ⟨0x4000, 8192, PROT_READ ||| PROT_WRITE, 1, 2 ^ 31 - 4096, 3⟩) ∧
    (vuninstall demoHighOffsetMapped 0x4000 4096).2 = 0 ∧
    (vuninstall demoHighOffsetMapped 0x4000 4096).1.vma[0]?
      = some ⟨0x5000, 4096, PROT_READ ||| PROT_WRITE, 1, -2 ^ 31, 3⟩ := by
  decide

/-- C15 (evaluation at the failing input): after 16 successful `vinstall`
calls the table of the sample process is full, with 16 occupied slots and 16
references held on file 3.  One more `vinstall` fails with -1 for want of a
free slot, and yet `filedup` has been called: 17 references are held for 16
occupied slots. -/
theorem vinstall_full_table_leaks_reference :
    occupied (vinstallN demoProc demoVMA 16) = 16 ∧
    fileRefs (vinstallN demoProc demoVMA 16).log 3 = 16 ∧
    (vinstall (vinstallN demoProc demoVMA 16) demoVMA).map
        (fun r => (r.2, occupied r.1, fileRefs r.1.log 3))
      = some (-1, 16, 17) := by
  decide

/-- C16 (evaluation at the failing input): a shared read-only VMA is
installed and its page faulted in, so that the entry of the page is valid
with `PTE_R` and `PTE_U` but without `PTE_W`.  `vuninstall` of the page then
calls `writei` for it, since `*pte & PROT_WRITE` is non-zero for every valid
entry. -/
theorem vuninstall_writes_read_only_page :
    demoROFaulted.pagetable (0x4000 / PGSIZE) = some (PA2PTE 0x80022000 ||| PROT_READ) ∧
    (PA2PTE 0x80022000 ||| PROT_READ) &&& PTE_V ≠ 0 ∧
    (PA2PTE 0x80022000 ||| PROT_READ) &&& PTE_W = 0 ∧
    demoROFaulted.log = [Event.filedup 3] ∧
    (vuninstall demoROFaulted 0x4000 4096).2 = 0 ∧
    (vuninstall demoROFaulted 0x4000 4096).1.log
      = [Event.filedup 3, Event.writei 7 0x80022000 0 4096, Event.fileclose 3] := by
  decide

/-! ## Further theorems about kalloc.c -/

theorem balanceScan_skip (id : Nat) (s : KState) (l1 l2 : List Nat)
    (h : ∀ i ∈ l1, i = id ∨ ∃ hi : i < s.length, (s[i]).freelist = []) :
    balanceScan id s (l1 ++ l2) = balanceScan id s l2 := by
  induction l1 with
  | nil => rfl
  | cons i rest ih =>
    have ih' := ih (fun j hj => h j (List.mem_cons_of_mem _ hj))
    rcases h i (List.mem_cons_self _ _) with hi | ⟨hi, he⟩
    · simp [balanceScan, hi, ih']
    · by_cases hid : i = id
      · simp [balanceScan, hid, ih']
      · simp [balanceScan, hid, List.getElem?_eq_getElem hi, he, ih']

/-- The steal from a sibling `A` with `n ≥ 1` pages and an exact count: the
first `n / 2 + 1` pages are cut off. -/
theorem balanceScan_take (id : Nat) (s : KState) (A : Nat) (l2 : List Nat)
    (hA : A < s.length) (hAid : A ≠ id) (hne : (s[A]).freelist ≠ [])
    (hcount : (s[A]).length = ((s[A]).freelist.length : Int)) :
    balanceScan id s (A :: l2)
      = some (s.set A ⟨(s[A]).freelist.drop ((s[A]).freelist.length / 2 + 1),
                (((s[A]).freelist.length - ((s[A]).freelist.length / 2 + 1) : Nat) : Int)⟩,
              (s[A]).freelist.take ((s[A]).freelist.length / 2 + 1),
              (((s[A]).freelist.length / 2 + 1 : Nat) : Int)) := by
  have hpos : 0 < (s[A]).freelist.length := List.length_pos.2 hne
  have hd : Int.tdiv (s[A]).length 2 = (((s[A]).freelist.length / 2 : Nat) : Int) := by
    rw [hcount, Int.tdiv_eq_ediv (by omega) (by norm_num)]
    norm_cast
  have hadv := advance_of_lt (s[A]).freelist ((s[A]).freelist.length / 2) (by omega)
  have hnn : ¬ ((((s[A]).freelist.length / 2 : Nat) : Int) < 0) := by omega
  have e1 : (s[A]).length - (((s[A]).freelist.length / 2 + 1 : Nat) : Int)
      = (((s[A]).freelist.length - ((s[A]).freelist.length / 2 + 1) : Nat) : Int) := by
    rw [hcount]
    omega
  have e2 : (((s[A]).freelist.length / 2 : Nat) : Int) + 1
      = (((s[A]).freelist.length / 2 + 1 : Nat) : Int) := by
    push_cast
    rfl
  unfold balanceScan
  simp only [hAid, if_false, List.getElem?_eq_getElem hA, hne, hd, hnn, Int.toNat_ofNat, hadv,
    e1, e2]

/-- C17 (counterexample): core 1 has freed eight pages and holds them with
the count 8, core 0 is empty; `balance(0)` leaves the first five pages on
core 0 and three on core 1, not four and four. -/
theorem balance_takes_five_of_eight :
    kfreeAll demoLayout (kboot 2) 1
        [0x80021000, 0x80022000, 0x80023000, 0x80024000, 0x80025000, 0x80026000,
         0x80027000, 0x80028000]
      = some demoEight ∧
    balance demoEight 0
      = some [⟨[0x80028000, 0x80027000, 0x80026000, 0x80025000, 0x80024000], 5⟩,
              ⟨[0x80023000, 0x80022000, 0x80021000], 3⟩] := by
  decide

/-- C17 (amended): when `balance` runs on a core `B` whose list is empty and
the first non-empty sibling `A` holds `n` pages with the count `n`, then
afterwards `B` holds the first `n / 2 + 1` pages of the list of `A` (`n / 2`
rounded down), `A` holds the other `n - (n / 2 + 1)` pages, both counts are
exact, and the count of `A` plus the count of `B` is `n`. -/
theorem balance_amount (s : KState) (A B : Nat) (hA : A < s.length) (hB : B < s.length)
    (hAB : A ≠ B) (hBe : (s[B]).freelist = [])
    (hfirst : ∀ i (hi : i < s.length), i < A → i ≠ B → (s[i]).freelist = [])
    (hne : (s[A]).freelist ≠ [])
    (hcount : (s[A]).length = ((s[A]).freelist.length : Int)) :
    ∃ s1 kA kB, balance s B = some s1 ∧ s1[A]? = some kA ∧ s1[B]? = some kB ∧
      kB.freelist = (s[A]).freelist.take ((s[A]).freelist.length / 2 + 1) ∧
      kA.freelist = (s[A]).freelist.drop ((s[A]).freelist.length / 2 + 1) ∧
      kB.freelist.length = (s[A]).freelist.length / 2 + 1 ∧
      kB.length = ((kB.freelist.length : Nat) : Int) ∧
      kA.length = ((kA.freelist.length : Nat) : Int) ∧
      kA.length + kB.length = ((s[A]).freelist.length : Int) := by
  have hpos : 0 < (s[A]).freelist.length := List.length_pos.2 hne
  have hrange : List.range s.length
      = List.range A ++ A :: (List.range (s.length - A - 1)).map (fun k => A + 1 + k) := by
    have e : s.length = A + ((s.length - A - 1) + 1) := by omega
    conv_lhs => rw [e, List.range_add, List.range_succ_eq_map]
    simp only [List.map_cons, List.map_map, Nat.add_zero]
    congr 2
    apply List.map_congr_left
    intro k _
    simp only [Function.comp]
    omega
  have hscan : balanceScan B s (List.range s.length) = _ :=
    (congrArg (balanceScan B s) hrange).trans
      ((balanceScan_skip B s (List.range A) _ (fun i hi => by
        have hiA : i < A := List.mem_range.1 hi
        by_cases hiB : i = B
        · exact Or.inl hiB
        · exact Or.inr ⟨by omega, hfirst i (by omega) hiA hiB⟩)).trans
        (balanceScan_take B s A _ hA hAB hne hcount))
  refine ⟨(s.set A ⟨(s[A]).freelist.drop ((s[A]).freelist.length / 2 + 1),
      (((s[A]).freelist.length - ((s[A]).freelist.length / 2 + 1) : Nat) : Int)⟩).set B
        ⟨(s[A]).freelist.take ((s[A]).freelist.length / 2 + 1),
          (((s[A]).freelist.length / 2 + 1 : Nat) : Int)⟩,
    ⟨(s[A]).freelist.drop ((s[A]).freelist.length / 2 + 1),
      (((s[A]).freelist.length - ((s[A]).freelist.length / 2 + 1) : Nat) : Int)⟩,
    ⟨(s[A]).freelist.take ((s[A]).freelist.length / 2 + 1),
      (((s[A]).freelist.length / 2 + 1 : Nat) : Int)⟩, ?_, ?_, ?_, rfl, rfl, ?_, ?_, ?_, ?_⟩
  · unfold balance
    simp only [List.getElem?_eq_getElem hB, hBe, ne_eq, not_true_eq_false, if_false, hscan]
  · rw [List.getElem?_set_ne (Ne.symm hAB), List.getElem?_set_self hA]
  · rw [List.getElem?_set_self (by simpa using hB)]
  · simp only [List.length_take]; omega
  · simp only [List.length_take]; congr 1; omega
  · simp only [List.length_drop]
  · simp only
    push_cast
    omega

/-- Witness for C17: the eight pages of core 1, core 0 empty. -/
theorem balance_amount_witness :
    ∃ s1 kA kB, balance demoEight 0 = some s1 ∧ s1[1]? = some kA ∧ s1[0]? = some kB ∧
      kB.freelist = (demoEight[1]).freelist.take ((demoEight[1]).freelist.length / 2 + 1) ∧
      kA.freelist = (demoEight[1]).freelist.drop ((demoEight[1]).freelist.length / 2 + 1) ∧
      kB.freelist.length = (demoEight[1]).freelist.length / 2 + 1 ∧
      kB.length = ((kB.freelist.length : Nat) : Int) ∧
      kA.length = ((kA.freelist.length : Nat) : Int) ∧
      kA.length + kB.length = ((demoEight[1]).freelist.length : Int) :=
  balance_amount demoEight 1 0 (by decide) (by decide) (by decide) rfl
    (fun i _ h1 h2 => absurd (Nat.lt_one_iff.1 h1) h2) (List.cons_ne_nil _ _) rfl

theorem demoShortCount_reach :
    KReach demoLayout 2 demoShortCount [] [0x80021000] :=
  have h1 : KReach demoLayout 2 [⟨[], 0⟩, ⟨[], -1⟩] [] [] :=
    KReach.exhausted 1 KReach.boot (by decide) (by decide)
  KReach.seed 1 0x80021000 h1 (by decide) (by decide) (by decide) (by decide)

/-- C20: in every reachable allocator state each count is the number of nodes
of its list or one less; so for every core with a non-empty list the number
`length / 2` of steps of `balance` is not negative and the walk ends on a
node (`tmp` is not null where `tmp->next` is read), and `balance` on any core
returns without a null dereference.  This includes the states after a `kalloc`
that returned 0. -/
theorem balance_never_walks_off (L : Layout) (NCPU : Nat) (s : KState) (al sd : List Nat)
    (h : KReach L NCPU s al sd) (c : Nat) (hc : c < NCPU) :
    (∀ k ∈ s, (k.freelist.length : Int) - 1 ≤ k.length ∧
      k.length ≤ (k.freelist.length : Int)) ∧
    (∀ k ∈ s, k.freelist ≠ [] →
      0 ≤ Int.tdiv k.length 2 ∧
      advance k.freelist (Int.tdiv k.length 2).toNat
        = some (k.freelist.take ((Int.tdiv k.length 2).toNat + 1),
                k.freelist.drop ((Int.tdiv k.length 2).toNat + 1))) ∧
    (∃ s1, balance s c = some s1) := by
  obtain ⟨hlen, hinv, _⟩ := kreach_inv L NCPU s al sd h
  refine ⟨fun k hk => hinv k hk, ?_, ?_⟩
  · intro k hk hne
    obtain ⟨h1, h2⟩ := hinv k hk
    obtain ⟨b0, b1, _⟩ := tdiv_two_bounds k.length k.freelist.length (List.length_pos.2 hne) h1 h2
    exact ⟨b0, advance_of_lt k.freelist _ b1⟩
  · obtain ⟨s1, hb, _⟩ := balance_spec s c hinv (hlen ▸ hc)
    exact ⟨s1, hb⟩

/-- Witness for C20: a reachable state after an exhausted `kalloc`, where the
count of core 1 is 0 for one node, and `balance` on core 0. -/
theorem balance_never_walks_off_witness :
    KReach demoLayout 2 demoShortCount [] [0x80021000] ∧
    ((∀ k ∈ demoShortCount, (k.freelist.length : Int) - 1 ≤ k.length ∧
      k.length ≤ (k.freelist.length : Int)) ∧
    (∀ k ∈ demoShortCount, k.freelist ≠ [] →
      0 ≤ Int.tdiv k.length 2 ∧
      advance k.freelist (Int.tdiv k.length 2).toNat
        = some (k.freelist.take ((Int.tdiv k.length 2).toNat + 1),
                k.freelist.drop ((Int.tdiv k.length 2).toNat + 1))) ∧
    (∃ s1, balance demoShortCount 0 = some s1)) :=
  ⟨demoShortCount_reach,
    balance_never_walks_off demoLayout 2 demoShortCount [] [0x80021000]
      demoShortCount_reach 0 (by decide)⟩

/-! ## Further theorems about bio.c -/

theorem binitLoop_cons (s : Bcache) (b : Nat) (bs : List Nat) :
    binitLoop s (b :: bs) = binitLoop (binitStep s b) bs := rfl

theorem binitStep_inv (k : Nat) (s : Bcache) (h : BinitInv k s) :
    BinitInv (k + 1) (binitStep s k) := by
  obtain ⟨h1, h2, h3, h4, h5⟩ := h
  have hk : ∀ j, k ∉ s.hashtable j := fun j hm => absurd (h3 j k hm) (lt_irrefl k)
  have hmem : ∀ x j, x ∈ (binitStep s k).hashtable j ↔
      (x = k ∧ j = k % NTABLE) ∨ x ∈ s.hashtable j := by
    intro x j
    simp only [binitStep, Function.update_apply]
    by_cases hj : j = k % NTABLE
    · subst hj
      simp
    · simp [hj]
  refine ⟨?_, ?_, ?_, ?_, ?_⟩
  · intro j
    simp only [binitStep, Function.update_apply]
    by_cases hj : j = k % NTABLE
    · simp only [hj, if_true]
      exact List.nodup_cons.2 ⟨hk _, h1 _⟩
    · simp only [hj, if_false]
      exact h1 j
  · intro b j j' hb hb'
    rcases (hmem b j).1 hb with ⟨rfl, rfl⟩ | hb1
    · rcases (hmem b j').1 hb' with ⟨_, rfl⟩ | hb2
      · rfl
      · exact absurd hb2 (hk _)
    · rcases (hmem b j').1 hb' with ⟨rfl, rfl⟩ | hb2
      · exact absurd hb1 (hk _)
      · exact h2 b j j' hb1 hb2
  · intro j b hb
    rcases (hmem b j).1 hb with ⟨rfl, _⟩ | hb1
    · exact Nat.lt_succ_self _
    · exact Nat.lt_succ_of_lt (h3 j b hb1)
  · intro i hi
    by_cases hik : i = k
    · subst hik
      refine ⟨by simp [binitStep], (hmem i _).2 (Or.inl ⟨rfl, rfl⟩)⟩
    · have hlt : i < k := by omega
      obtain ⟨e1, e2⟩ := h4 i hlt
      refine ⟨?_, (hmem i _).2 (Or.inr e2)⟩
      simp only [binitStep, Function.update_noteq hik]
      exact e1
  · intro i
    by_cases hik : i = k
    · subst hik
      simp [binitStep, h5 i]
    · simp only [binitStep, Function.update_noteq hik]
      exact h5 i

theorem binitLoop_inv (n k : Nat) (s : Bcache) (h : BinitInv k s) :
    BinitInv (k + n) (binitLoop s (List.range' k n)) := by
  induction n generalizing k s with
  | zero => simpa [binitLoop] using h
  | succ n ih =>
    rw [List.range'_succ, binitLoop_cons]
    have := ih (k + 1) (binitStep s k) (binitStep_inv k s h)
    have e : k + 1 + n = k + (n + 1) := by omega
    rw [e] at this
    exact this

/-- After `binit` buffer `i` is in bucket `i % NTABLE`, once, and in no other
bucket; its `nblock` is `i % NTABLE`; and no buffer is held. -/
theorem binit_inv (NBUF BSIZE : Nat) : BinitInv NBUF (binit NBUF BSIZE) := by
  have h0 : BinitInv 0 ⟨fun _ => zeroBuf BSIZE, fun _ => []⟩ := by
    refine ⟨fun _ => List.nodup_nil, ?_, ?_, ?_, ?_⟩
    · intro b j j' hb; simp at hb
    · intro j b hb; simp at hb
    · intro i hi; omega
    · intro i; rfl
  have := binitLoop_inv NBUF 0 _ h0
  rw [Nat.zero_add] at this
  unfold binit
  rw [List.range_eq_range']
  exact this

theorem stealOrder_ne : ∀ n < NTABLE, n ∉ stealOrder n := by
  decide

/-- The bucket invariants depend only on the bucket lists and the fields
`nblock`. -/
theorem binv_congr (NBUF : Nat) (s t : Bcache) (hh : t.hashtable = s.hashtable)
    (hn : ∀ i, (t.buf i).nblock = (s.buf i).nblock)
    (h : BucketsOK NBUF s ∧ MemberOK NBUF s) : BucketsOK NBUF t ∧ MemberOK NBUF t := by
  obtain ⟨⟨h1, h2, h3⟩, h4⟩ := h
  refine ⟨⟨?_, ?_, ?_⟩, ?_⟩
  · intro j; rw [hh]; exact h1 j
  · intro b j j'; rw [hh]; exact h2 b j j'
  · intro j; rw [hh]; exact h3 j
  · intro i hi
    rw [hh, hn i]
    exact h4 i hi

theorem mem_stealState (NBUF : Nat) (s : Bcache) (dev blockno n p b : Nat)
    (h : BucketsOK NBUF s) (hb : b ∈ s.hashtable p) (hpn : p ≠ n) (x j : Nat) :
    x ∈ (stealState s dev blockno n p b).hashtable j ↔
      (x = b ∧ j = n) ∨ (x ≠ b ∧ x ∈ s.hashtable j) := by
  obtain ⟨h1, h2, _⟩ := h
  have hbj : ∀ j, b ∈ s.hashtable j → j = p := fun j hj => h2 b j p hj hb
  have hnp : ¬ n = p := fun e => hpn e.symm
  simp only [stealState, Function.update_apply]
  by_cases hjn : j = n
  · rw [if_pos hjn, if_neg hnp, List.mem_cons]
    constructor
    · rintro (hx | hx)
      · exact Or.inl ⟨hx, hjn⟩
      · refine Or.inr ⟨?_, hjn ▸ hx⟩
        intro hxb
        exact hnp (hbj n (hxb ▸ hx))
    · rintro (⟨hx, _⟩ | ⟨_, hx⟩)
      · exact Or.inl hx
      · exact Or.inr (hjn ▸ hx)
  · rw [if_neg hjn]
    by_cases hjp : j = p
    · rw [if_pos hjp, (h1 p).mem_erase_iff]
      constructor
      · rintro ⟨hx1, hx2⟩; exact Or.inr ⟨hx1, hjp ▸ hx2⟩
      · rintro (⟨_, hj⟩ | ⟨hx1, hx2⟩)
        · exact absurd hj hjn
        · exact ⟨hx1, hjp ▸ hx2⟩
    · rw [if_neg hjp]
      constructor
      · intro hx
        refine Or.inr ⟨?_, hx⟩
        intro hxb
        exact hjp (hbj j (hxb ▸ hx))
      · rintro (⟨_, hj⟩ | ⟨_, hx2⟩)
        · exact absurd hj hjn
        · exact hx2

theorem binv_steal (NBUF : Nat) (s : Bcache) (dev blockno n p b : Nat)
    (h : BucketsOK NBUF s ∧ MemberOK NBUF s) (hb : b ∈ s.hashtable p) (hpn : p ≠ n)
    (hn : n < NTABLE) :
    BucketsOK NBUF (stealState s dev blockno n p b) ∧
      MemberOK NBUF (stealState s dev blockno n p b) := by
  have hmem := mem_stealState NBUF s dev blockno n p b h.1 hb hpn
  obtain ⟨⟨h1, h2, h3⟩, h4⟩ := h
  have hbn : b ∉ s.hashtable n := fun hc => hpn (h2 b p n hb hc)
  refine ⟨⟨?_, ?_, ?_⟩, ?_⟩
  · intro j
    simp only [stealState, Function.update_apply]
    by_cases hjn : j = n
    · have hnp : ¬ n = p := fun e => hpn e.symm
      simp only [hjn, if_true, hnp, if_false]
      exact List.nodup_cons.2 ⟨hbn, h1 n⟩
    · simp only [hjn, if_false]
      by_cases hjp : j = p
      · simp only [hjp, if_true]
        exact (h1 p).erase b
      · simp only [hjp, if_false]
        exact h1 j
  · intro x j j' hx hx'
    rcases (hmem x j).1 hx with ⟨hxe, rfl⟩ | ⟨hxb, hx1⟩
    · rcases (hmem x j').1 hx' with ⟨_, rfl⟩ | ⟨hxb', _⟩
      · rfl
      · exact absurd hxe hxb'
    · rcases (hmem x j').1 hx' with ⟨hxe, _⟩ | ⟨_, hx2⟩
      · exact absurd hxe hxb
      · exact h2 x j j' hx1 hx2
  · intro j x hx
    rcases (hmem x j).1 hx with ⟨rfl, _⟩ | ⟨_, hx1⟩
    · exact h3 p x hb
    · exact h3 j x hx1
  · intro i hi
    by_cases hib : i = b
    · subst hib
      have e : ((stealState s dev blockno n p i).buf i).nblock = n := by
        simp [stealState]
      rw [e]
      exact ⟨hn, (hmem i n).2 (Or.inl ⟨rfl, rfl⟩)⟩
    · have e : ((stealState s dev blockno n p b).buf i).nblock = (s.buf i).nblock := by
        simp [stealState, Function.update_noteq hib]
      rw [e]
      exact ⟨(h4 i hi).1, (hmem i _).2 (Or.inr ⟨hib, (h4 i hi).2⟩)⟩

theorem binv_setBuf (NBUF : Nat) (s : Bcache) (b : Nat) (x : Buf)
    (hx : x.nblock = (s.buf b).nblock)
    (h : BucketsOK NBUF s ∧ MemberOK NBUF s) :
    BucketsOK NBUF (setBuf s b x) ∧ MemberOK NBUF (setBuf s b x) := by
  refine binv_congr NBUF s (setBuf s b x) rfl ?_ h
  intro i
  by_cases hib : i = b
  · subst hib; simp [setBuf, hx]
  · simp [setBuf, Function.update_noteq hib]

theorem binv_bget (NBUF : Nat) (s s' : Bcache) (dev blockno b : Nat)
    (hg : bget s dev blockno = some (s', b))
    (h : BucketsOK NBUF s ∧ MemberOK NBUF s) :
    BucketsOK NBUF s' ∧ MemberOK NBUF s' := by
  rcases bget_cases s s' dev blockno b hg with ⟨_, rfl⟩ | ⟨_, _, rfl⟩ | ⟨_, _, p, hp, hf, rfl⟩
  · exact binv_setBuf NBUF s b _ rfl h
  · exact binv_setBuf NBUF s b _ rfl h
  · have hn : blockno % NTABLE < NTABLE := Nat.mod_lt _ (by decide)
    have hpn : p ≠ blockno % NTABLE := by
      rintro rfl
      exact stealOrder_ne _ hn hp
    exact binv_steal NBUF s dev blockno _ p b h (findLRU_some s p b hf).1 hpn hn

theorem binv_bread (NBUF : Nat) (disk : Nat → Nat → List Nat) (s s' : Bcache)
    (dev blockno b : Nat) (r : Bool) (hr : bread disk s dev blockno = some (s', b, r))
    (h : BucketsOK NBUF s ∧ MemberOK NBUF s) :
    BucketsOK NBUF s' ∧ MemberOK NBUF s' := by
  unfold bread at hr
  cases hg : bget s dev blockno with
  | none => rw [hg] at hr; simp at hr
  | some res =>
    obtain ⟨s0, b0⟩ := res
    rw [hg] at hr
    have h0 := binv_bget NBUF s s0 dev blockno b0 hg h
    simp only at hr
    split at hr
    · simp only [Option.some.injEq, Prod.mk.injEq] at hr
      rw [← hr.1]
      exact binv_setBuf NBUF s0 b0 _ rfl h0
    · simp only [Option.some.injEq, Prod.mk.injEq] at hr
      rw [← hr.1]
      exact h0

/-- Every reachable cache state satisfies the bucket invariants. -/
theorem breach_inv (NBUF BSIZE : Nat) (s : Bcache) (h : BReach NBUF BSIZE s) :
    BucketsOK NBUF s ∧ MemberOK NBUF s := by
  induction h with
  | init =>
    obtain ⟨h1, h2, h3, h4, _⟩ := binit_inv NBUF BSIZE
    refine ⟨⟨h1, h2, h3⟩, ?_⟩
    intro i hi
    obtain ⟨e1, e2⟩ := h4 i hi
    rw [e1]
    exact ⟨Nat.mod_lt _ (by decide), e2⟩
  | bget dev blockno b _ hg ih => exact binv_bget NBUF _ _ dev blockno b hg ih
  | bread disk dev blockno b r _ hr ih => exact binv_bread NBUF disk _ _ dev blockno b r hr ih
  | brelse b ticks _ ih => exact binv_setBuf NBUF _ b _ rfl ih
  | bpin b _ ih => exact binv_setBuf NBUF _ b _ rfl ih
  | bunpin b _ ih => exact binv_setBuf NBUF _ b _ rfl ih
  | setData b d _ ih => exact binv_setBuf NBUF _ b _ rfl ih

theorem bget_result_in_bucket (s s' : Bcache) (dev blockno b : Nat)
    (hg : bget s dev blockno = some (s', b)) :
    (∃ j, b ∈ s.hashtable j) ∧ b ∈ s'.hashtable (blockno % NTABLE) := by
  rcases bget_cases s s' dev blockno b hg with ⟨hl, rfl⟩ | ⟨_, hf, rfl⟩ | ⟨_, _, p, _, hf, rfl⟩
  · have := (bgetLookup_some s dev blockno b hl).1
    exact ⟨⟨_, this⟩, this⟩
  · have := (findLRU_some s _ b hf).1
    exact ⟨⟨_, this⟩, this⟩
  · refine ⟨⟨p, (findLRU_some s p b hf).1⟩, ?_⟩
    simp [stealState]

/-- C18: bucket membership invariant.  `binit` puts buffer `i` into bucket
`i % NTABLE` and sets `nblock`; and in every state reachable from `binit` by
`bget`, `bread`, `brelse`, `bpin`, `bunpin` and data writes, each of the
`NBUF` buffers occurs exactly once in the list of the bucket that its
`nblock` names and in no other list.  In particular the buffer that `bget`
returns, also one taken from another bucket, is afterwards once in the home
bucket `blockno % NTABLE`, in no other bucket, and has `nblock` set to the
home bucket. -/
theorem bucket_membership (NBUF BSIZE : Nat) (s : Bcache) (h : BReach NBUF BSIZE s) :
    (∀ i < NBUF, ((binit NBUF BSIZE).buf i).nblock = i % NTABLE ∧
      i ∈ (binit NBUF BSIZE).hashtable (i % NTABLE)) ∧
    (∀ i < NBUF, (s.buf i).nblock < NTABLE ∧
      (s.hashtable (s.buf i).nblock).count i = 1 ∧
      ∀ j, j ≠ (s.buf i).nblock → (s.hashtable j).count i = 0) ∧
    (∀ dev blockno s' b, bget s dev blockno = some (s', b) →
      b < NBUF ∧ (s'.buf b).nblock = blockno % NTABLE ∧
      (s'.hashtable (blockno % NTABLE)).count b = 1 ∧
      ∀ j, j ≠ blockno % NTABLE → (s'.hashtable j).count b = 0) := by
  have key : ∀ t, BucketsOK NBUF t ∧ MemberOK NBUF t →
      ∀ i < NBUF, (t.buf i).nblock < NTABLE ∧
        (t.hashtable (t.buf i).nblock).count i = 1 ∧
        ∀ j, j ≠ (t.buf i).nblock → (t.hashtable j).count i = 0 := by
    intro t ht i hi
    obtain ⟨⟨h1, h2, _⟩, h4⟩ := ht
    obtain ⟨e1, e2⟩ := h4 i hi
    refine ⟨e1, List.count_eq_one_of_mem (h1 _) e2, ?_⟩
    intro j hj
    rw [List.count_eq_zero]
    intro hm
    exact hj (h2 i j _ hm e2)
  have hinv := breach_inv NBUF BSIZE s h
  refine ⟨(binit_inv NBUF BSIZE).2.2.2.1, key s hinv, ?_⟩
  intro dev blockno s' b hg
  have hinv' := binv_bget NBUF s s' dev blockno b hg hinv
  obtain ⟨⟨j0, hj0⟩, hhome⟩ := bget_result_in_bucket s s' dev blockno b hg
  have hb : b < NBUF := hinv.1.2.2 j0 b hj0
  obtain ⟨_, k2, k3⟩ := key s' hinv' b hb
  have hnb : (s'.buf b).nblock = blockno % NTABLE :=
    (hinv'.1.2.1 b _ _ hhome (hinv'.2 b hb).2).symm
  rw [hnb] at k2 k3
  exact ⟨hb, hnb, k2, k3⟩

theorem demoCache_reach : BReach 3 4 demoCache :=
  BReach.bget 1 5 0 BReach.init rfl

/-- Witness for C18: the sample cache, the state after `binit` and
`bget(1, 5)`, which moved buffer 0 from bucket 0 to bucket 5. -/
theorem bucket_membership_witness :
    BReach 3 4 demoCache ∧
    ((∀ i < 3, ((binit 3 4).buf i).nblock = i % NTABLE ∧
      i ∈ (binit 3 4).hashtable (i % NTABLE)) ∧
    (∀ i < 3, (demoCache.buf i).nblock < NTABLE ∧
      (demoCache.hashtable (demoCache.buf i).nblock).count i = 1 ∧
      ∀ j, j ≠ (demoCache.buf i).nblock → (demoCache.hashtable j).count i = 0) ∧
    (∀ dev blockno s' b, bget demoCache dev blockno = some (s', b) →
      b < 3 ∧ (s'.buf b).nblock = blockno % NTABLE ∧
      (s'.hashtable (blockno % NTABLE)).count b = 1 ∧
      ∀ j, j ≠ blockno % NTABLE → (s'.hashtable j).count b = 0)) :=
  ⟨demoCache_reach, bucket_membership 3 4 demoCache demoCache_reach⟩

/-- The first match `c` of a list stays the first match when another entry
`b` stops matching, is erased, or is put in front. -/
theorem find?_stable {p q : Nat → Bool} (l : List Nat) (b c : Nat) (hcb : c ≠ b)
    (hb : q b = false) (hp : ∀ x, x ≠ b → q x = p x) (h : l.find? p = some c) :
    l.find? q = some c ∧ (l.erase b).find? q = some c ∧ (b :: l).find? q = some c := by
  have main : l.find? q = some c ∧ (l.erase b).find? q = some c := by
    induction l with
    | nil => simp at h
    | cons a rest ih =>
      by_cases hab : a = b
      · subst hab
        have hpa : p a = false := by
          by_contra hc
          have hc' : p a = true := by simpa using hc
          simp only [List.find?, hc', Option.some.injEq] at h
          exact hcb h.symm
        simp only [List.find?, hpa] at h
        obtain ⟨i1, _⟩ := ih h
        refine ⟨by simp only [List.find?, hb]; exact i1, ?_⟩
        rw [List.erase_cons_head]
        exact i1
      · have hqa : q a = p a := hp a hab
        have he : (a :: rest).erase b = a :: rest.erase b :=
          List.erase_cons_tail (by simpa using hab)
        rw [he]
        by_cases hpa : p a = true
        · simp only [List.find?, hpa, Option.some.injEq] at h
          subst h
          simp [List.find?, hqa, hpa]
        · have hpa' : p a = false := by simpa using hpa
          simp only [List.find?, hpa'] at h
          obtain ⟨i1, i2⟩ := ih h
          simp only [List.find?, hqa, hpa']
          exact ⟨i1, i2⟩
  refine ⟨main.1, main.2, ?_⟩
  simp only [List.find?, hb]
  exact main.1

/-- The lookup of a buffer `c` is not disturbed when another buffer `b` takes
an identity different from that of `c` and is moved between bucket lists. -/
theorem lookup_stable (s t : Bcache) (b c : Nat) (hcb : c ≠ b)
    (hbuf : ∀ x, x ≠ b → t.buf x = s.buf x)
    (hbid : ¬ ((t.buf b).dev = (s.buf c).dev ∧ (t.buf b).blockno = (s.buf c).blockno))
    (hl : ∀ j, t.hashtable j = s.hashtable j ∨ t.hashtable j = (s.hashtable j).erase b ∨
      t.hashtable j = b :: s.hashtable j)
    (h : bgetLookup s (s.buf c).dev (s.buf c).blockno = some c) :
    bgetLookup t (t.buf c).dev (t.buf c).blockno = some c := by
  rw [hbuf c hcb]
  unfold bgetLookup at h ⊢
  have hst := find?_stable
    (p := fun x => decide ((s.buf x).dev = (s.buf c).dev ∧ (s.buf x).blockno = (s.buf c).blockno))
    (q := fun x => decide ((t.buf x).dev = (s.buf c).dev ∧ (t.buf x).blockno = (s.buf c).blockno))
    (s.hashtable ((s.buf c).blockno % NTABLE)) b c hcb (by simpa using hbid)
    (fun x hx => by simp only [hbuf x hx]) h
  rcases hl ((s.buf c).blockno % NTABLE) with e | e | e
  · rw [e]; exact hst.1
  · rw [e]; exact hst.2.1
  · rw [e]; exact hst.2.2

/-- `LookupOK` is kept by a step that changes no bucket list and no identity
and holds no buffer that was not held. -/
theorem lookupOK_refonly (s t : Bcache) (hh : t.hashtable = s.hashtable)
    (hid : ∀ i, (t.buf i).dev = (s.buf i).dev ∧ (t.buf i).blockno = (s.buf i).blockno)
    (href : ∀ i, 0 < (t.buf i).refcnt → 0 < (s.buf i).refcnt)
    (h : LookupOK s) : LookupOK t := by
  intro c hc
  rw [(hid c).1, (hid c).2, bgetLookup_congr s t _ _ hh hid]
  exact h c (href c hc)

theorem lookupOK_setBuf (s : Bcache) (b : Nat) (x : Buf)
    (hd : x.dev = (s.buf b).dev) (hk : x.blockno = (s.buf b).blockno)
    (hr : 0 < x.refcnt → 0 < (s.buf b).refcnt) (h : LookupOK s) :
    LookupOK (setBuf s b x) := by
  refine lookupOK_refonly s (setBuf s b x) rfl ?_ ?_ h
  · intro i
    by_cases hib : i = b
    · subst hib; simp [setBuf, hd, hk]
    · simp [setBuf, Function.update_noteq hib]
  · intro i
    by_cases hib : i = b
    · subst hib; simpa [setBuf] using hr
    · simp [setBuf, Function.update_noteq hib]

theorem bget_result_identity (s s' : Bcache) (dev blockno b : Nat)
    (hg : bget s dev blockno = some (s', b)) :
    (s'.buf b).dev = dev ∧ (s'.buf b).blockno = blockno := by
  rcases bget_cases s s' dev blockno b hg with ⟨hl, rfl⟩ | ⟨_, _, rfl⟩ | ⟨_, _, p, _, _, rfl⟩
  · obtain ⟨_, h1, h2⟩ := bgetLookup_some s dev blockno b hl
    simp [setBuf, h1, h2]
  · simp [setBuf]
  · simp [stealState]

theorem lookupOK_bget (s s' : Bcache) (dev blockno b : Nat)
    (hg : bget s dev blockno = some (s', b)) (h : LookupOK s) : LookupOK s' := by
  intro c hc
  by_cases hcb : c = b
  · subst hcb
    obtain ⟨e1, e2⟩ := bget_result_identity s s' dev blockno c hg
    rw [e1, e2]
    exact bgetLookup_after_bget s s' dev blockno c hg
  · have hmiss_id : bgetLookup s dev blockno = none → 0 < (s.buf c).refcnt →
        ¬ (dev = (s.buf c).dev ∧ blockno = (s.buf c).blockno) := by
      rintro hm hcr ⟨rfl, rfl⟩
      rw [h c hcr] at hm
      simp at hm
    rcases bget_cases s s' dev blockno b hg with
      ⟨_, rfl⟩ | ⟨hm, _, rfl⟩ | ⟨hm, _, p, hp, hf, rfl⟩
    · have hc0 : 0 < (s.buf c).refcnt := by
        simpa [setBuf, Function.update_noteq hcb] using hc
      have := h c hc0
      rw [← this]
      have hbufc : (setBuf s b
          { s.buf b with refcnt := uintInc (s.buf b).refcnt }).buf c = s.buf c := by
        simp [setBuf, Function.update_noteq hcb]
      rw [hbufc]
      apply bgetLookup_congr
      · rfl
      · intro i
        by_cases hib : i = b
        · subst hib; simp [setBuf]
        · simp [setBuf, Function.update_noteq hib]
    · have hc0 : 0 < (s.buf c).refcnt := by
        simpa [setBuf, Function.update_noteq hcb] using hc
      apply lookup_stable s _ b c hcb
      · intro x hx
        simp [setBuf, Function.update_noteq hx]
      · simpa [setBuf] using hmiss_id hm hc0
      · intro j; exact Or.inl rfl
      · exact h c hc0
    · have hc0 : 0 < (s.buf c).refcnt := by
        simpa [stealState, Function.update_noteq hcb] using hc
      have hn : blockno % NTABLE < NTABLE := Nat.mod_lt _ (by decide)
      have hpn : ¬ blockno % NTABLE = p := by
        intro e
        exact stealOrder_ne _ hn (e ▸ hp)
      apply lookup_stable s _ b c hcb
      · intro x hx
        simp [stealState, Function.update_noteq hx]
      · simpa [stealState] using hmiss_id hm hc0
      · intro j
        simp only [stealState, Function.update_apply]
        by_cases hjn : j = blockno % NTABLE
        · rw [if_pos hjn, if_neg hpn, hjn]
          exact Or.inr (Or.inr rfl)
        · rw [if_neg hjn]
          by_cases hjp : j = p
          · rw [if_pos hjp, hjp]
            exact Or.inr (Or.inl rfl)
          · rw [if_neg hjp]
            exact Or.inl rfl
      · exact h c hc0

theorem lookupOK_bread (disk : Nat → Nat → List Nat) (s s' : Bcache) (dev blockno b : Nat)
    (r : Bool) (hr : bread disk s dev blockno = some (s', b, r)) (h : LookupOK s) :
    LookupOK s' := by
  unfold bread at hr
  cases hg : bget s dev blockno with
  | none => rw [hg] at hr; simp at hr
  | some res =>
    obtain ⟨s0, b0⟩ := res
    rw [hg] at hr
    have h0 := lookupOK_bget s s0 dev blockno b0 hg h
    simp only at hr
    split at hr
    · simp only [Option.some.injEq, Prod.mk.injEq] at hr
      rw [← hr.1]
      exact lookupOK_setBuf s0 b0 _ rfl rfl (fun x => x) h0
    · simp only [Option.some.injEq, Prod.mk.injEq] at hr
      rw [← hr.1]
      exact h0

/-- Every state reachable by calls that respect the interface satisfies
`LookupOK`. -/
theorem breachC_lookupOK (NBUF BSIZE : Nat) (s : Bcache) (h : BReachC NBUF BSIZE s) :
    LookupOK s := by
  induction h with
  | init =>
    intro c hc
    rw [(binit_inv NBUF BSIZE).2.2.2.2 c] at hc
    exact absurd hc (lt_irrefl 0)
  | bread disk dev blockno b r _ hr ih => exact lookupOK_bread disk _ _ dev blockno b r hr ih
  | brelse b ticks _ hb ih => exact lookupOK_setBuf _ b _ rfl rfl (fun _ => hb) ih
  | bpin b _ hb ih => exact lookupOK_setBuf _ b _ rfl rfl (fun _ => hb) ih
  | bunpin b _ hb ih => exact lookupOK_setBuf _ b _ rfl rfl (fun _ => hb) ih
  | setData b d _ ih => exact lookupOK_setBuf _ b _ rfl rfl (fun x => x) ih

theorem breachC_breach (NBUF BSIZE : Nat) (s : Bcache) (h : BReachC NBUF BSIZE s) :
    BReach NBUF BSIZE s := by
  induction h with
  | init => exact BReach.init
  | bread disk dev blockno b r _ hr ih => exact BReach.bread disk dev blockno b r ih hr
  | brelse b ticks _ _ ih => exact BReach.brelse b ticks ih
  | bpin b _ _ ih => exact BReach.bpin b ih
  | bunpin b _ _ ih => exact BReach.bunpin b ih
  | setData b d _ ih => exact BReach.setData b d ih

/-- C19 (counterexample): after `binit` for a pool of 3 buffers, `bpin` is
called on the buffers 1 and 2, which nobody holds; no buffer is released or
unpinned.  Then two distinct buffers have `refcnt > 0` and the same
`(dev, blockno) = (0, 0)`, and neither lies in bucket `0 % NTABLE`. -/
theorem bpin_of_free_buffers_duplicates :
    ((bpin (bpin (binit 3 4) 1) 2).buf 1).refcnt = 1 ∧
    ((bpin (bpin (binit 3 4) 1) 2).buf 2).refcnt = 1 ∧
    ((bpin (bpin (binit 3 4) 1) 2).buf 1).dev = ((bpin (bpin (binit 3 4) 1) 2).buf 2).dev ∧
    ((bpin (bpin (binit 3 4) 1) 2).buf 1).blockno
      = ((bpin (bpin (binit 3 4) 1) 2).buf 2).blockno ∧
    1 ∉ (bpin (bpin (binit 3 4) 1) 2).hashtable
      (((bpin (bpin (binit 3 4) 1) 2).buf 1).blockno % NTABLE) ∧
    bgetLookup (bpin (bpin (binit 3 4) 1) 2) 0 0 = some 0 := by
  decide

/-- C19 (amended): no duplicate cached block.  In every state reachable from
`binit` by `bread`, `brelse`, `bpin`, `bunpin` and data writes, where
`brelse`, `bpin` and `bunpin` are called only on a buffer with `refcnt > 0`,
no two distinct buffers with
`refcnt > 0` have the same `(dev, blockno)`; every buffer with `refcnt > 0`
lies in the list of bucket `blockno % NTABLE`, which is also its `nblock`;
and the lookup of `bget` in the home bucket finds every held buffer by its
`(dev, blockno)`. -/
theorem no_duplicate_held_block (NBUF BSIZE : Nat) (s : Bcache)
    (h : BReachC NBUF BSIZE s) :
    (∀ b1 b2, 0 < (s.buf b1).refcnt → 0 < (s.buf b2).refcnt →
      (s.buf b1).dev = (s.buf b2).dev → (s.buf b1).blockno = (s.buf b2).blockno →
      b1 = b2) ∧
    (∀ b, 0 < (s.buf b).refcnt →
      b ∈ s.hashtable ((s.buf b).blockno % NTABLE) ∧
      (s.buf b).nblock = (s.buf b).blockno % NTABLE) ∧
    (∀ b dev blockno, 0 < (s.buf b).refcnt → (s.buf b).dev = dev →
      (s.buf b).blockno = blockno → bgetLookup s dev blockno = some b) := by
  have hlook := breachC_lookupOK NBUF BSIZE s h
  obtain ⟨⟨_, h2, h3⟩, h4⟩ := breach_inv NBUF BSIZE s (breachC_breach NBUF BSIZE s h)
  refine ⟨?_, ?_, ?_⟩
  · intro b1 b2 hb1 hb2 hd hk
    have e1 := hlook b1 hb1
    have e2 := hlook b2 hb2
    rw [hd, hk, e2] at e1
    simpa using e1.symm
  · intro b hb
    have hm := (bgetLookup_some s _ _ b (hlook b hb)).1
    refine ⟨hm, ?_⟩
    have hlt : b < NBUF := h3 _ b hm
    exact h2 b _ _ (h4 b hlt).2 hm
  · intro b dev blockno hb hd hk
    rw [← hd, ← hk]
    exact hlook b hb

theorem demoRead_reach : BReachC 3 4 demoRead :=
  BReachC.bread (fun _ _ => [7, 7, 7, 7]) 1 5 0 true BReachC.init rfl

/-- Witness for C19: the sample cache after `binit` and `bread(1, 5)`, in
which buffer 0 is held. -/
theorem no_duplicate_held_block_witness :
    BReachC 3 4 demoRead ∧ 0 < (demoRead.buf 0).refcnt ∧
    ((∀ b1 b2, 0 < (demoRead.buf b1).refcnt → 0 < (demoRead.buf b2).refcnt →
      (demoRead.buf b1).dev = (demoRead.buf b2).dev →
      (demoRead.buf b1).blockno = (demoRead.buf b2).blockno → b1 = b2) ∧
    (∀ b, 0 < (demoRead.buf b).refcnt →
      b ∈ demoRead.hashtable ((demoRead.buf b).blockno % NTABLE) ∧
      (demoRead.buf b).nblock = (demoRead.buf b).blockno % NTABLE) ∧
    (∀ b dev blockno, 0 < (demoRead.buf b).refcnt → (demoRead.buf b).dev = dev →
      (demoRead.buf b).blockno = blockno → bgetLookup demoRead dev blockno = some b)) :=
  ⟨demoRead_reach, by decide, no_duplicate_held_block 3 4 demoRead demoRead_reach⟩
